import Mathlib

/-!
Verification of the plc-simulator memory manager, Modbus module and IO
manager against their natural-language specification.

The Python code is shallowly embedded: `bytearray`s become `List Nat`
(each element a byte value `< 256`), Python big integers become `Nat`
(or `Int` where the source can go negative), and code that can raise an
exception returns `Except PyErr _`.  Python slice semantics (negative
indices, clamping, `None` bounds, slice assignment) are modelled by
dedicated helpers so that each embedded function can mirror its source
line by line.
-/

/-- Exceptions that the embedded Python code can raise: `IndexError`
(bounds violations, called `OutOfBounds` in the spec), `ValueError`
(bad byte values or an invalid bit window, `InvalidBitWindow` in the
spec), and `OverflowError` (from `int.to_bytes` when the value does not
fit the requested length). -/
inductive PyErr where
  | indexError
  | valueError
  | overflowError
deriving DecidableEq

/-- Python `int.from_bytes(data, byteorder='big')`: fold the bytes from
the most significant end. -/
def int_from_bytes (data : List Nat) : Nat :=
  data.foldl (fun acc b => acc * 256 + b) 0

/-- The canonical `n`-byte big-endian representation of `v` (the value
of Python `v.to_bytes(n, byteorder='big')` when it does not overflow). -/
def natToBEBytes : Nat → Nat → List Nat
  | _, 0 => []
  | v, n + 1 => natToBEBytes (v / 256) n ++ [v % 256]

/-- Python `v.to_bytes(length, byteorder='big')`: raises `OverflowError`
when `v` needs more than `length` bytes. -/
def int_to_bytes (v length : Nat) : Except PyErr (List Nat) :=
  if v < 256 ^ length then .ok (natToBEBytes v length) else .error .overflowError

/-- Clamp a (possibly negative) Python slice index to `[0, len]`:
negative indices count from the end of the sequence. -/
def pyBound (len : Nat) (i : Int) : Nat :=
  if i < 0 then ((len : Int) + i).toNat else min i.toNat len

/-- Python slice `l[a:b]` (step 1); `b = none` models `l[a:]`. -/
def pySlice (l : List Nat) (a : Int) (b : Option Int) : List Nat :=
  let startIdx := pyBound l.length a
  let stopIdx := match b with
    | none => l.length
    | some j => pyBound l.length j
  (l.take stopIdx).drop startIdx

/-- Python slice assignment `l[a:b] = new` (step 1): the elements in the
clamped range `[start, stop)` are replaced by `new`, which may have a
different length (the sequence is then resized). -/
def pySetSlice (l : List Nat) (a : Int) (b : Option Int) (new : List Nat) : List Nat :=
  let startIdx := pyBound l.length a
  let stopIdx := max startIdx (match b with
    | none => l.length
    | some j => pyBound l.length j)
  l.take startIdx ++ new ++ l.drop stopIdx

/-- Python `bytearray` slice assignment: every assigned value must be a
byte, otherwise `ValueError` is raised and nothing is mutated. -/
def pySetSliceB (l : List Nat) (a : Int) (b : Option Int) (new : List Nat) :
    Except PyErr (List Nat) :=
  if ∀ v ∈ new, v < 256 then .ok (pySetSlice l a b new) else .error .valueError

/-- Python `bytearray` element assignment `l[i] = v` (nonnegative `i`):
`IndexError` when out of range, `ValueError` when `v` is not a byte. -/
def pySetByte (l : List Nat) (i : Nat) (v : Nat) : Except PyErr (List Nat) :=
  if i < l.length then
    if v < 256 then .ok (l.set i v) else .error .valueError
  else .error .indexError

/-- Python element read `l[i]` (nonnegative `i`): `IndexError` when out
of range. -/
def pyGetByte (l : List Nat) (i : Nat) : Except PyErr Nat :=
  match l[i]? with
  | some v => .ok v
  | none => .error .indexError

/-- Python `l[-n:]`: the last `n` elements for `n ≥ 1`; for `n = 0` the
slice `l[0:]` is the whole list. -/
def pyTakeLast (l : List Nat) (n : Nat) : List Nat :=
  if n = 0 then l else l.drop (l.length - n)

/-- Python `x & ~y` on nonnegative ints: keep the bits of `x` that are
not set in `y`. -/
def pyAndNot (x y : Nat) : Nat := Nat.ldiff x y

/-!
MemoryManager (src/plcsimulator/MemoryManager.py).

The memory manager holds one byte buffer per section.  The embedded
operations below act on a single section's byte list; the section name
argument of the Python methods only selects which buffer is used and
(for `get_data`/`set_data`) the word length.
-/

/-- Number of bits per byte (module constant `BITS_PER_BYTE`). -/
def BITS_PER_BYTE : Nat := 8

/-- The four memory space sections (Python uses the strings `'bits'`,
`'words16'`, `'words32'`, `'words64'`; an unknown string raises
`ValueError`, which the total inductive type makes unrepresentable). -/
inductive MemSection where
  | bits
  | words16
  | words32
  | words64
deriving DecidableEq

/-- MemoryManager.get_section_word_len. -/
def get_section_word_len : MemSection → Nat
  | .bits => 1
  | .words16 => 2
  | .words32 => 4
  | .words64 => 8

/-- MemoryManager.check_bounds on a section of `sectionLen` bytes whose
word length is `wlen`.  The Python test is
`start_addr < 0 or end_addr > len(section)`; the first disjunct cannot
fire here because addresses are nonnegative (`Nat`). -/
def check_bounds (wlen sectionLen addr nwords : Nat) : Except PyErr Unit :=
  let end_addr := addr * wlen + nwords * wlen
  if end_addr > sectionLen then .error .indexError else .ok ()

/-- MemoryManager.lshift_bits.  `lengthArg = none` models `length=None`;
Python's `length or len(data)` also falls back when `length == 0`. -/
def lshift_bits (data : List Nat) (n : Nat) (lengthArg : Option Nat) (truncate : Bool) :
    Except PyErr (List Nat) :=
  let data := if truncate then data else 0x00 :: data
  let length := match lengthArg with
    | none => data.length
    | some l => if l = 0 then data.length else l
  let bits := int_from_bytes data
  int_to_bytes (bits <<< n) length

/-- MemoryManager.rshift_bits. -/
def rshift_bits (data : List Nat) (n : Nat) (lengthArg : Option Nat) (truncate : Bool) :
    Except PyErr (List Nat) :=
  let data := if truncate then data else data ++ [0x00]
  let length := match lengthArg with
    | none => data.length
    | some l => if l = 0 then data.length else l
  let bits := int_from_bytes data
  int_to_bytes (bits >>> n) length

/-- MemoryManager.calc_byte_mask.  Python `~mask & 0xff` is the
complement of the low 8 bits, i.e. `(mask &&& 0xff) ^^^ 0xff`. -/
def calc_byte_mask (start_bit end_bit : Nat) : Except PyErr Nat :=
  if end_bit - start_bit > BITS_PER_BYTE then .error .valueError
  else
    let start_nbits := start_bit % BITS_PER_BYTE
    let end_nbits := end_bit % BITS_PER_BYTE
    let start_mask := 2 ^ start_nbits - 1
    let end_mask := 2 ^ BITS_PER_BYTE - 2 ^ (end_nbits + 1)
    let mask := (start_mask &&& 0xff) + (end_mask &&& 0xff)
    .ok ((mask &&& 0xff) ^^^ 0xff)

/-- The `for i in range(nbytes)` loop of MemoryManager.calc_masks,
with the running `start_bit`/`end_bit` state made explicit. -/
def calc_masks_loop (end_addr : Nat) : Nat → Nat → Nat → Except PyErr (List Nat)
  | 0, _, _ => .ok []
  | n + 1, start_bit, end_bit => do
    let mask ← calc_byte_mask start_bit end_bit
    let start_bit2 := end_bit + 1
    let end_bit2 := start_bit2 + BITS_PER_BYTE - 1
    let end_bit2 := if end_bit2 > end_addr - 1 then end_addr - 1 else end_bit2
    let rest ← calc_masks_loop end_addr n start_bit2 end_bit2
    .ok (mask :: rest)

/-- MemoryManager.calc_masks: per-byte masks covering the bit window,
built left-to-right and then reversed. -/
def calc_masks (addr nbits : Nat) : Except PyErr (List Nat) := do
  let start_addr := addr
  let end_addr := addr + nbits
  let nbytes := end_addr / BITS_PER_BYTE - start_addr / BITS_PER_BYTE
  let nbytes := if end_addr % BITS_PER_BYTE > 0 then nbytes + 1 else nbytes
  let start_bit := start_addr
  let end_bit := (start_bit + BITS_PER_BYTE) / BITS_PER_BYTE * BITS_PER_BYTE - 1
  let end_bit := if end_bit > end_addr - 1 then end_addr - 1 else end_bit
  let masks ← calc_masks_loop end_addr nbytes start_bit end_bit
  .ok masks.reverse

/-- MemoryManager.calc_mem_slice_byte_bounds on a section of
`sectionLen` bytes: the (negative) Python slice bounds of the byte
slice covered by the bit window; the right bound is `none` when it is
the end of the buffer. -/
def calc_mem_slice_byte_bounds (sectionLen addr nbits : Nat) :
    Except PyErr (Int × Option Int) := do
  let start_byte := addr / BITS_PER_BYTE
  let end_byte := (addr + nbits) / BITS_PER_BYTE
  let nbytes := end_byte - start_byte
  check_bounds 1 sectionLen start_byte nbytes
  let right_byte : Int := -((start_byte : Int) + 1)
  let left_byte : Int := -((end_byte : Int) + 1)
  let p :=
    if (addr + nbits) % BITS_PER_BYTE > 0 then (left_byte, right_byte + 1)
    else (left_byte + 1, right_byte + 1)
  .ok (p.1, if p.2 = 0 then none else some p.2)

/-- MemoryManager.get_data on a section's byte list (the lock only
guards concurrent access and has no sequential effect). -/
def get_data (wlen : Nat) (mem : List Nat) (addr nwords : Nat) :
    Except PyErr (List Nat) := do
  check_bounds wlen mem.length addr nwords
  .ok (pySlice mem ((addr * wlen : Nat) : Int)
    (some ((addr * wlen + nwords * wlen : Nat) : Int)))

/-- MemoryManager.set_data on a section's byte list; the updated
section is returned (Python mutates `self.memspace[section]` in place
and returns the caller's `data`). -/
def set_data (wlen : Nat) (mem : List Nat) (addr nwords : Nat) (data : List Nat) :
    Except PyErr (List Nat) := do
  check_bounds wlen mem.length addr nwords
  pySetSliceB mem ((addr * wlen : Nat) : Int)
    (some ((addr * wlen + nwords * wlen : Nat) : Int)) data

/-- MemoryManager.get_bits on the bits section's byte list.  The
`right_addr`/`left_addr` locals of the source are computed but never
used and are omitted; `mem_slice.copy()` is the identity on values. -/
def get_bits (mem : List Nat) (addr nbits : Nat) : Except PyErr (List Nat) := do
  let masks ← calc_masks addr nbits
  let bounds ← calc_mem_slice_byte_bounds mem.length addr nbits
  let mem_slice := pySlice mem bounds.1 bounds.2
  let data := mem_slice
  let data_bits := int_from_bytes data
  let masks_bits := int_from_bytes masks
  let masked_bits := data_bits &&& masks_bits
  let data ← int_to_bytes masked_bits masks.length
  let data ← rshift_bits data (addr % BITS_PER_BYTE) none true
  let data_len := nbits / BITS_PER_BYTE
  let data_len := if nbits % BITS_PER_BYTE > 0 then data_len + 1 else data_len
  .ok (pyTakeLast data data_len)

/-- MemoryManager.set_bits on the bits section's byte list; the updated
section is returned (Python mutates it in place and returns the
left-shifted data). -/
def set_bits (mem : List Nat) (addr nbits : Nat) (data : List Nat) :
    Except PyErr (List Nat) := do
  let masks ← calc_masks addr nbits
  let bounds ← calc_mem_slice_byte_bounds mem.length addr nbits
  let mem_slice := pySlice mem bounds.1 bounds.2
  let data ← lshift_bits data (addr % BITS_PER_BYTE) none false
  let mem_slice_bits := int_from_bytes mem_slice
  let data_bits := int_from_bytes data
  let masks_bits := int_from_bytes masks
  let patched_bits := (data_bits &&& masks_bits) ||| pyAndNot mem_slice_bits masks_bits
  let patched_bytes ← int_to_bytes patched_bits masks.length
  pySetSliceB mem bounds.1 bounds.2 patched_bytes

/-- Value of bit `k` of a bits-section byte list under the source's
right-to-left addressing: per the MemoryManager doc, bit zero is the
right-most bit of the last byte, i.e. the least significant bit of the
buffer read as a big-endian integer. -/
def section_bit (mem : List Nat) (k : Nat) : Bool :=
  Nat.testBit (int_from_bytes mem) k

/-!
FieldbusMessage (src/plcsimulator/FieldbusMessage.py) and ModbusModule
(src/plcsimulator/ModbusModule.py).

A message buffer is its byte list.  Each service handler takes the
relevant memory section's byte list and the received request buffer
and returns the response buffer that would be sent with `sendall`
(paired with the updated section for write handlers).  A `.error`
result models an exception escaping the handler: the Python caller
then closes the connection and no response is sent.
-/

/-- FieldbusMessage.make_word: big-endian word from `buf[s:e+1]`. -/
def make_word (buf : List Nat) (s e : Nat) : Nat :=
  int_from_bytes (pySlice buf s (some ((e + 1 : Nat) : Int)))

/-- `DEFAULTS['byte_nbits']` of the Modbus module. -/
def byte_nbits : Nat := 8

/-- `DEFAULTS['word_nbytes']` of the Modbus module. -/
def word_nbytes : Nat := 2

/-- `DEFAULTS['exception_flag']` of the Modbus module. -/
def exception_flag : Nat := 0x80

/-- `DEFAULTS['exception_codes']['illegal_function']`. -/
def illegal_function : Nat := 0x01

/-- `DEFAULTS['exception_codes']['illegal_data_address']`. -/
def illegal_data_address : Nat := 0x02

/-- ModbusModule.construct_exception_response: sets the high bit of the
function code byte and stores the exception code at offset 8.  Note
that it does not touch the MBAP length field at offset 5. -/
def construct_exception_response (request : List Nat) (excode : Nat) :
    Except PyErr (List Nat) := do
  let b7 ← pyGetByte request 7
  let buf ← pySetByte request 7 (b7 ||| exception_flag)
  let buf ← pySetByte buf 8 excode
  .ok buf

/-- ModbusModule.service_read_coil_status_request (function 0x01) on
the bits section.  The Python `try` block catches only `IndexError`
(from the memory manager's bounds check); any other exception
propagates and the connection is closed without a response. -/
def service_read_coil_status (bits request : List Nat) : Except PyErr (List Nat) :=
  let addr := make_word request 8 9
  let nbits := make_word request 10 11
  match get_bits bits addr nbits with
  | .ok data0 =>
    let data := data0.reverse
    let data_nbytes := if nbits % byte_nbits > 0 then nbits / byte_nbits + 1
      else nbits / byte_nbits
    (do
      let response := List.replicate (9 + data_nbytes) 0
      let response ← pySetSliceB response 0 (some 8) (pySlice request 0 (some 8))
      let response ← pySetByte response 8 data_nbytes
      let response ← pySetSliceB response 9 (some ((9 + data_nbytes + 1 : Nat) : Int)) data
      let response ← pySetByte response 5 (response.length - 6)
      .ok response)
  | .error .indexError => construct_exception_response request illegal_data_address
  | .error e => .error e

/-- ModbusModule.service_read_holding_registers_request (function 0x03)
on the words16 section. -/
def service_read_holding_registers (mem16 request : List Nat) : Except PyErr (List Nat) :=
  let addr := make_word request 8 9
  let nwords := make_word request 10 11
  match get_data word_nbytes mem16 addr nwords with
  | .ok data =>
    let data_nbytes := nwords * word_nbytes
    (do
      let response := List.replicate (9 + data_nbytes) 0
      let response ← pySetSliceB response 0 (some 8) (pySlice request 0 (some 8))
      let response ← pySetByte response 8 data_nbytes
      let response ← pySetSliceB response 9 (some ((9 + data_nbytes + 1 : Nat) : Int)) data
      let response ← pySetByte response 5 (response.length - 6)
      .ok response)
  | .error .indexError => construct_exception_response request illegal_data_address
  | .error e => .error e

/-- ModbusModule.service_preset_single_register_request (function 0x06)
on the words16 section; returns the response paired with the updated
section (unchanged when the bounds check fails). -/
def service_preset_single_register (mem16 request : List Nat) :
    Except PyErr (List Nat × List Nat) :=
  let addr := make_word request 8 9
  let nwords := 1
  let data_nbytes := 2
  let data := pySlice request 10 (some ((10 + data_nbytes : Nat) : Int))
  match set_data word_nbytes mem16 addr nwords data with
  | .ok mem2 =>
    (do
      let response := request
      let response ← pySetByte response 5 (response.length - 6)
      .ok (response, mem2))
  | .error .indexError => do
    let response ← construct_exception_response request illegal_data_address
    .ok (response, mem16)
  | .error e => .error e

/-- ModbusModule.service_unknown_request: exception response with
`illegal_function`, with the MBAP length field restamped. -/
def service_unknown_request (request : List Nat) : Except PyErr (List Nat) := do
  let response ← construct_exception_response request illegal_function
  pySetByte response 5 (response.length - 6)

/-!
IoManager (src/plcsimulator/IoManager.py): the counter simulation.
-/

/-- IoManager.get_next_range_value with the `range_params` list
`[start, stop, step]` passed as three arguments.  Counter values are
Python ints and may be negative. -/
def get_next_range_value (start stop step value : Int) : Int :=
  let next_value := value + step
  if step < 0 then
    if next_value ≤ stop then start else next_value
  else
    if next_value ≥ stop then start else next_value

/-- The value a counter simulation emits on tick `n`:
`init_simulation` seeds `sources['counter']` with `range[0]`, and each
`simulate_data` tick emits the current counter and then stores
`get_next_range_value` of it. -/
def counter_values (start stop step : Int) : Nat → Int
  | 0 => start
  | n + 1 => get_next_range_value start stop step (counter_values start stop step n)

/-- The byte-mask formula exactly as the specification words it:
`start_mask = 2^(start_bit%8) - 1`,
`end_mask = (0xff - (2^((end_bit%8)+1) - 1))` wrapped to 8 bits,
the two masks combined, and the result inverted within 8 bits. -/
def spec_byte_mask (start_bit end_bit : Nat) : Nat :=
  let start_mask := 2 ^ (start_bit % 8) - 1
  let end_mask := (0xff - (2 ^ ((end_bit % 8) + 1) - 1)) % 256
  ((start_mask + end_mask) % 256) ^^^ 0xff

/-- Number of bytes of the bits section covered by the bit window
(the `nbytes` computed by `calc_masks`). -/
def winBytes (addr nbits : Nat) : Nat :=
  if (addr + nbits) % 8 > 0 then (addr + nbits) / 8 - addr / 8 + 1
  else (addr + nbits) / 8 - addr / 8

/-- Integer value of the window's keep-mask, relative to the least
significant bit of the covered byte slice. -/
def winMask (addr nbits : Nat) : Nat := (2 ^ nbits - 1) * 2 ^ (addr % 8)

/-- The byte slice of the bits section covered by an in-bounds window,
in left-to-right order (Python `mem[-(B+K):-B]` with `B = addr / 8` and
`K = winBytes addr nbits`). -/
def winSlice (mem : List Nat) (addr nbits : Nat) : List Nat :=
  (mem.drop (mem.length - addr / 8 - winBytes addr nbits)).take (winBytes addr nbits)

/-- The integer value written back over the slice by `set_bits`. -/
def patchedVal (mem data : List Nat) (addr nbits : Nat) : Nat :=
  (int_from_bytes data <<< (addr % 8)) &&& winMask addr nbits
    ||| pyAndNot (int_from_bytes (winSlice mem addr nbits)) (winMask addr nbits)

/-- `ceil(nbits / 8)` as computed by `get_bits` (`data_len`) and by the
read-coil handler (`data_nbytes`). -/
def ceilBytes (nbits : Nat) : Nat :=
  if nbits % 8 > 0 then nbits / 8 + 1 else nbits / 8

/-!
Arithmetic facts about big-endian byte lists.
-/

/-- Folding the byte accumulator from an arbitrary starting value. -/
theorem foldl_bytes_acc (l : List Nat) (a : Nat) :
    l.foldl (fun acc b => acc * 256 + b) a
      = a * 256 ^ l.length + l.foldl (fun acc b => acc * 256 + b) 0 := by
  induction l generalizing a with
  | nil => simp
  | cons x xs ih =>
    simp only [List.foldl_cons, List.length_cons, Nat.zero_mul, Nat.zero_add]
    rw [ih (a * 256 + x), ih x]
    ring

/-- Value of a singleton byte list. -/
theorem int_from_bytes_singleton (x : Nat) : int_from_bytes [x] = x := by
  simp [int_from_bytes]

/-- Value of a cons byte list. -/
theorem int_from_bytes_cons (x : Nat) (l : List Nat) :
    int_from_bytes (x :: l) = x * 256 ^ l.length + int_from_bytes l := by
  simp only [int_from_bytes, List.foldl_cons, Nat.zero_mul, Nat.zero_add]
  exact foldl_bytes_acc l x

/-- Value of a concatenation of byte lists. -/
theorem int_from_bytes_append (l1 l2 : List Nat) :
    int_from_bytes (l1 ++ l2)
      = int_from_bytes l1 * 256 ^ l2.length + int_from_bytes l2 := by
  simp only [int_from_bytes, List.foldl_append]
  exact foldl_bytes_acc l2 _

/-- A list of bytes encodes a value below `256 ^ length`. -/
theorem int_from_bytes_lt (l : List Nat) (h : ∀ b ∈ l, b < 256) :
    int_from_bytes l < 256 ^ l.length := by
  induction l with
  | nil => simp [int_from_bytes]
  | cons x xs ih =>
    rw [int_from_bytes_cons]
    have hx : x < 256 := h x (List.mem_cons_self x xs)
    have hxs := ih (fun b hb => h b (List.mem_cons_of_mem x hb))
    have h1 : x * 256 ^ xs.length + int_from_bytes xs < (x + 1) * 256 ^ xs.length := by
      have := hxs
      nlinarith [hxs]
    have h2 : (x + 1) * 256 ^ xs.length ≤ 256 * 256 ^ xs.length :=
      Nat.mul_le_mul_right _ hx
    have h3 : (256 : Nat) * 256 ^ xs.length = 256 ^ (x :: xs).length := by
      rw [List.length_cons, pow_succ]
      ring
    omega

/-- `natToBEBytes` has the requested length. -/
theorem natToBEBytes_length (v n : Nat) : (natToBEBytes v n).length = n := by
  induction n generalizing v with
  | zero => rfl
  | succ n ih => simp [natToBEBytes, ih]

/-- Every entry of `natToBEBytes` is a byte. -/
theorem natToBEBytes_bytes_lt (v n : Nat) : ∀ b ∈ natToBEBytes v n, b < 256 := by
  induction n generalizing v with
  | zero => simp [natToBEBytes]
  | succ n ih =>
    intro b hb
    simp only [natToBEBytes, List.mem_append, List.mem_singleton] at hb
    rcases hb with hb | hb
    · exact ih _ b hb
    · subst hb
      exact Nat.mod_lt _ (by norm_num)

/-- Decoding the canonical encoding gives back the value. -/
theorem int_from_bytes_natToBEBytes (v n : Nat) (h : v < 256 ^ n) :
    int_from_bytes (natToBEBytes v n) = v := by
  induction n generalizing v with
  | zero =>
    have hv : v = 0 := by simpa using h
    subst hv
    rfl
  | succ n ih =>
    rw [natToBEBytes, int_from_bytes_append, int_from_bytes_singleton]
    have hdiv : v / 256 < 256 ^ n := by
      rw [Nat.div_lt_iff_lt_mul (by norm_num)]
      calc v < 256 ^ (n + 1) := h
        _ = 256 ^ n * 256 := by rw [pow_succ]
    rw [ih _ hdiv]
    simp only [List.length_singleton, pow_one]
    omega

/-- Encoding the decoded value of a byte list gives back the list. -/
theorem natToBEBytes_int_from_bytes (l : List Nat) (h : ∀ b ∈ l, b < 256) :
    natToBEBytes (int_from_bytes l) l.length = l := by
  induction l using List.reverseRecOn with
  | nil => rfl
  | append_singleton xs x ih =>
    have hx : x < 256 := h x (by simp)
    have hxs : ∀ b ∈ xs, b < 256 := fun b hb => h b (by simp [hb])
    rw [int_from_bytes_append, int_from_bytes_singleton]
    have hlen : (xs ++ [x]).length = xs.length + 1 := by simp
    rw [hlen, natToBEBytes]
    have hd : (int_from_bytes xs * 256 ^ ([x] : List Nat).length + x) / 256
        = int_from_bytes xs := by
      simp only [List.length_singleton, pow_one]
      omega
    have hm : (int_from_bytes xs * 256 ^ ([x] : List Nat).length + x) % 256 = x := by
      simp only [List.length_singleton, pow_one]
      omega
    rw [hd, hm, ih hxs]

/-- Splitting a canonical encoding into its high and low parts. -/
theorem natToBEBytes_split (a b : Nat) : ∀ v : Nat,
    natToBEBytes v (a + b)
      = natToBEBytes (v / 256 ^ b) a ++ natToBEBytes (v % 256 ^ b) b := by
  induction b with
  | zero =>
    intro v
    simp [natToBEBytes]
  | succ b ih =>
    intro v
    have h1 : a + (b + 1) = (a + b) + 1 := by omega
    rw [h1, natToBEBytes, ih (v / 256)]
    have h2 : v / 256 / 256 ^ b = v / 256 ^ (b + 1) := by
      rw [Nat.div_div_eq_div_mul, pow_succ]
      ring_nf
    have h3 : v / 256 % 256 ^ b = v % 256 ^ (b + 1) / 256 := by
      rw [pow_succ, mul_comm]
      exact (Nat.mod_mul_right_div_self v 256 (256 ^ b)).symm
    have h4 : v % 256 = v % 256 ^ (b + 1) % 256 := by
      rw [Nat.mod_mod_of_dvd v (dvd_pow_self 256 (Nat.succ_ne_zero b))]
    rw [h2, h3, h4, natToBEBytes, List.append_assoc]

/-- Powers of 256 are powers of 2. -/
theorem pow256_eq_two_pow (n : Nat) : 256 ^ n = 2 ^ (8 * n) := by
  rw [Nat.pow_mul]

/-!
Bit-level facts used to reason about the mask arithmetic of
`get_bits`/`set_bits`.
-/

/-- Numbers whose bits at or above `n` are all clear are below `2 ^ n`. -/
theorem lt_two_pow_of_high_bits_false {x n : Nat}
    (h : ∀ i, n ≤ i → x.testBit i = false) : x < 2 ^ n := by
  have hx : x = x % 2 ^ n := by
    apply Nat.eq_of_testBit_eq
    intro i
    rw [Nat.testBit_mod_two_pow]
    by_cases hi : i < n
    · simp [hi]
    · simp [hi, h i (le_of_not_lt hi)]
  rw [hx]
  exact Nat.mod_lt _ (Nat.two_pow_pos n)

/-- High bits of a value split as `a * 2 ^ m + b` with `b < 2 ^ m`. -/
theorem testBit_mul_add_high (a b m j : Nat) (hb : b < 2 ^ m) :
    (a * 2 ^ m + b).testBit (m + j) = a.testBit j := by
  have h1 : (a * 2 ^ m + b) / 2 ^ (m + j) = a / 2 ^ j := by
    rw [pow_add, ← Nat.div_div_eq_div_mul]
    congr 1
    rw [mul_comm a (2 ^ m), Nat.mul_add_div (Nat.two_pow_pos m),
      Nat.div_eq_of_lt hb]
    omega
  rw [Nat.testBit_to_div_mod, Nat.testBit_to_div_mod, h1]

/-- Low bits of a value split as `a * 2 ^ m + b` (any `a`). -/
theorem testBit_mul_add_low (a b m j : Nat) (hj : j < m) :
    (a * 2 ^ m + b).testBit j = b.testBit j := by
  obtain ⟨d, rfl⟩ : ∃ d, m = j + (d + 1) := ⟨m - j - 1, by omega⟩
  have h1 : a * 2 ^ (j + (d + 1)) + b = 2 ^ j * (a * 2 ^ d * 2) + b := by
    rw [pow_add, pow_succ]
    ring
  rw [Nat.testBit_to_div_mod, Nat.testBit_to_div_mod, h1,
    Nat.mul_add_div (Nat.two_pow_pos j), mul_comm (a * 2 ^ d) 2,
    Nat.mul_add_mod]

/-- Bits of the window mask `(2 ^ nb - 1) * 2 ^ w`. -/
theorem testBit_winMask (w nb i : Nat) :
    ((2 ^ nb - 1) * 2 ^ w).testBit i = (decide (w ≤ i) && decide (i < w + nb)) := by
  rw [← Nat.shiftLeft_eq, Nat.testBit_shiftLeft, Nat.testBit_two_pow_sub_one]
  by_cases hw : w ≤ i
  · by_cases hi : i < w + nb
    · have h2 : i - w < nb := by omega
      simp [ge_iff_le, hw, hi, h2]
    · have h2 : ¬ i - w < nb := by omega
      simp [ge_iff_le, hw, hi, h2]
  · simp [ge_iff_le, hw]

/-- The window mask is bounded by the window's top bit. -/
theorem winMask_lt (w nb : Nat) : (2 ^ nb - 1) * 2 ^ w < 2 ^ (w + nb) := by
  apply lt_two_pow_of_high_bits_false
  intro i hi
  rw [testBit_winMask]
  simp only [Bool.and_eq_false_iff, decide_eq_false_iff_not]
  omega

/-- Core byte computation of `calc_byte_mask` for in-byte positions. -/
theorem byte_mask_core : ∀ s, s < 8 → ∀ e, e < 8 → s ≤ e →
    ((((2 ^ s - 1) &&& 0xff) + ((2 ^ 8 - 2 ^ (e + 1)) &&& 0xff)) &&& 0xff) ^^^ 0xff
      = 2 ^ (e + 1) - 2 ^ s := by decide

/-- The source's byte-mask computation agrees with the spec's formula
for arbitrary bit positions. -/
theorem byte_mask_spec_core : ∀ s, s < 8 → ∀ e, e < 8 →
    ((((2 ^ s - 1) &&& 0xff) + ((2 ^ 8 - 2 ^ (e + 1)) &&& 0xff)) &&& 0xff) ^^^ 0xff
      = (((2 ^ s - 1) + ((0xff - (2 ^ (e + 1) - 1)) % 256)) % 256) ^^^ 0xff := by decide

/-- `calc_byte_mask` on two bit positions inside one byte: the mask
keeps exactly the in-byte bits `s % 8 .. e % 8`. -/
theorem calc_byte_mask_in_byte (s e : Nat) (hse : s ≤ e) (hbyte : e / 8 = s / 8) :
    calc_byte_mask s e = .ok (2 ^ (e % 8 + 1) - 2 ^ (s % 8)) := by
  have h8 : ¬ e - s > BITS_PER_BYTE := by
    simp only [BITS_PER_BYTE]
    omega
  have hmod : s % 8 ≤ e % 8 := by omega
  have hcore := byte_mask_core (s % 8) (Nat.mod_lt s (by norm_num)) (e % 8)
    (Nat.mod_lt e (by norm_num)) hmod
  simp only [calc_byte_mask, BITS_PER_BYTE] at h8 ⊢
  rw [if_neg h8, hcore]

/-- Evaluation of the `calc_masks` loop: starting at bit `s` with the
byte-clamped `end_bit`, the loop emits one mask byte per remaining byte
of the window `[s, ea)`, and the reversed mask list reads, as a
big-endian integer, as the contiguous bit mask of the window relative
to the base of the byte containing `s`. -/
theorem calc_masks_loop_eval :
    ∀ (k s ea : Nat), 0 < k → s < ea → (ea - 1) / 8 - s / 8 + 1 = k →
      ∃ ms, calc_masks_loop ea k s (min (8 * (s / 8) + 7) (ea - 1)) = .ok ms ∧
        ms.length = k ∧ (∀ b ∈ ms, b < 256) ∧
        int_from_bytes ms.reverse = (2 ^ (ea - s) - 1) * 2 ^ (s % 8) := by
  intro k
  induction k with
  | zero => intro s ea h0 _ _; exact absurd h0 (by omega)
  | succ k ih =>
    intro s ea _ hs hk
    have h256 : (2 : Nat) ^ 8 = 256 := by norm_num
    by_cases hk0 : k = 0
    · -- base: the window ends inside the byte containing `s`
      subst hk0
      have hbyte : (ea - 1) / 8 = s / 8 := by omega
      have hmin : min (8 * (s / 8) + 7) (ea - 1) = ea - 1 := by omega
      refine ⟨[2 ^ ((ea - 1) % 8 + 1) - 2 ^ (s % 8)], ?_, by simp, ?_, ?_⟩
      · rw [hmin]
        simp only [calc_masks_loop]
        rw [calc_byte_mask_in_byte s (ea - 1) (by omega) hbyte]
        rfl
      · intro b hb
        rw [List.mem_singleton] at hb
        subst hb
        have h2 : 2 ^ ((ea - 1) % 8 + 1) ≤ 2 ^ 8 :=
          Nat.pow_le_pow_right (by norm_num) (by omega)
        have h3 : 1 ≤ 2 ^ (s % 8) := Nat.one_le_two_pow
        omega
      · rw [List.reverse_singleton, int_from_bytes_singleton, Nat.sub_mul,
          one_mul, ← pow_add]
        have hr : (ea - 1) % 8 + 1 = ea - s + s % 8 := by omega
        rw [hr]
    · -- step: the byte of `s` is fully inside the window
      have hk1 : 0 < k := Nat.pos_of_ne_zero hk0
      have hea : 8 * (s / 8) + 7 < ea - 1 := by omega
      have hmin : min (8 * (s / 8) + 7) (ea - 1) = 8 * (s / 8) + 7 := by omega
      obtain ⟨rest, hrest, hlen, hbytes, hval⟩ :=
        ih (8 * (s / 8) + 8) ea hk1 (by omega) (by omega)
      refine ⟨(2 ^ ((8 * (s / 8) + 7) % 8 + 1) - 2 ^ (s % 8)) :: rest, ?_,
        by simp [hlen], ?_, ?_⟩
      · rw [hmin]
        simp only [calc_masks_loop, BITS_PER_BYTE]
        rw [calc_byte_mask_in_byte s (8 * (s / 8) + 7) (by omega) (by omega)]
        rw [show 8 * (s / 8) + 7 + 1 = 8 * (s / 8) + 8 from by omega]
        rw [show (8 * (s / 8) + 8) / 8 = s / 8 + 1 from by omega] at hrest
        have harg : (if 8 * (s / 8) + 8 + 8 - 1 > ea - 1 then ea - 1
            else 8 * (s / 8) + 8 + 8 - 1)
            = min (8 * (s / 8 + 1) + 7) (ea - 1) := by
          rw [Nat.min_def]
          split_ifs <;> omega
        rw [harg, hrest]
        rfl
      · intro b hb
        rw [List.mem_cons] at hb
        rcases hb with hb | hb
        · subst hb
          have h2 : 2 ^ ((8 * (s / 8) + 7) % 8 + 1) ≤ 2 ^ 8 :=
            Nat.pow_le_pow_right (by norm_num) (by omega)
          have h3 : 1 ≤ 2 ^ (s % 8) := Nat.one_le_two_pow
          omega
        · exact hbytes b hb
      · rw [List.reverse_cons, int_from_bytes_append, int_from_bytes_singleton,
          List.length_singleton, pow_one, hval]
        rw [show (8 * (s / 8) + 8) % 8 = 0 from by omega,
          show (8 * (s / 8) + 7) % 8 = 7 from by omega, pow_zero, mul_one]
        have hA1 : 1 ≤ 2 ^ (ea - (8 * (s / 8) + 8)) := Nat.one_le_two_pow
        have hexp : ea - (8 * (s / 8) + 8) + 8 = ea - s + s % 8 := by omega
        have hpow : 2 ^ (ea - (8 * (s / 8) + 8)) * 256 = 2 ^ (ea - s + s % 8) := by
          rw [← hexp, pow_add]
          norm_num
        have hrle : (2 : Nat) ^ (s % 8) ≤ 2 ^ 8 :=
          Nat.pow_le_pow_right (by norm_num) (by omega)
        have hr2 : (2 : Nat) ^ (s % 8) ≤ 2 ^ (ea - s + s % 8) :=
          Nat.pow_le_pow_right (by norm_num) (by omega)
        have hrhs : (2 ^ (ea - s) - 1) * 2 ^ (s % 8)
            = 2 ^ (ea - s + s % 8) - 2 ^ (s % 8) := by
          rw [Nat.sub_mul, one_mul, ← pow_add]
        rw [hrhs]
        omega

/-- Reduction of an `Except` bind on a success value. -/
theorem except_bind_ok {ε α β : Type} (a : α) (f : α → Except ε β) :
    (Except.ok a : Except ε α) >>= f = f a := rfl

/-- Reduction of an `Except` bind on an error value. -/
theorem except_bind_error {ε α β : Type} (e : ε) (f : α → Except ε β) :
    (Except.error e : Except ε α) >>= f = Except.error e := rfl

/-- Evaluation of `calc_masks` on a nonempty window: the reversed mask
list is the canonical `winBytes`-byte encoding of the window's
keep-mask `winMask`. -/
theorem calc_masks_eval (addr nbits : Nat) (h1 : 1 ≤ nbits) :
    calc_masks addr nbits
      = .ok (natToBEBytes (winMask addr nbits) (winBytes addr nbits)) := by
  have hk : 0 < winBytes addr nbits
      ∧ (addr + nbits - 1) / 8 - addr / 8 + 1 = winBytes addr nbits := by
    simp only [winBytes]
    split_ifs with h <;> omega
  obtain ⟨ms, hloop, hlen, hbytes, hval⟩ :=
    calc_masks_loop_eval (winBytes addr nbits) addr (addr + nbits) hk.1
      (by omega) hk.2
  rw [show addr + nbits - addr = nbits from by omega] at hval
  simp only [calc_masks, BITS_PER_BYTE]
  rw [show (addr + 8) / 8 * 8 - 1 = 8 * (addr / 8) + 7 from by omega]
  have hinit : (if 8 * (addr / 8) + 7 > addr + nbits - 1 then addr + nbits - 1
      else 8 * (addr / 8) + 7) = min (8 * (addr / 8) + 7) (addr + nbits - 1) := by
    rw [Nat.min_def]
    split_ifs <;> omega
  rw [hinit]
  have hnb : (if (addr + nbits) % 8 > 0 then (addr + nbits) / 8 - addr / 8 + 1
      else (addr + nbits) / 8 - addr / 8) = winBytes addr nbits := by
    simp only [winBytes]
  rw [hnb, hloop]
  show Except.ok ms.reverse = _
  have hb2 : ∀ b ∈ ms.reverse, b < 256 := fun b hb =>
    hbytes b (List.mem_reverse.mp hb)
  have hcanon := natToBEBytes_int_from_bytes ms.reverse hb2
  rw [List.length_reverse, hlen, hval] at hcanon
  rw [← hcanon]
  rfl

/-- Clamping the negative Python index `-n` in a sequence of length
`L ≥ n` (for `n ≥ 1`) yields position `L - n`. -/
theorem pyBound_neg (L n : Nat) (h1 : 1 ≤ n) (h : n ≤ L) :
    pyBound L (-(n : Int)) = L - n := by
  simp only [pyBound]
  rw [if_pos (show -(n : Int) < 0 by omega)]
  have h5 := Int.toNat_of_nonneg (show (0 : Int) ≤ (L : Int) + -(n : Int) by omega)
  omega

/-- Geometry of the byte slice used by `get_bits`/`set_bits` on an
in-bounds, nonempty window: the bounds check passes, and the Python
slice with negative indices is the `winBytes`-byte middle piece of the
section that covers the window, `addr / 8` bytes from the right end. -/
theorem mem_slice_bounds_eval (mem : List Nat) (addr nbits : Nat) (h1 : 1 ≤ nbits)
    (hw : addr + nbits ≤ 8 * mem.length) :
    ∃ lb rb, calc_mem_slice_byte_bounds mem.length addr nbits = .ok (lb, rb) ∧
      pySlice mem lb rb
        = (mem.drop (mem.length - addr / 8 - winBytes addr nbits)).take
            (winBytes addr nbits) ∧
      (∀ new : List Nat, pySetSlice mem lb rb new
        = mem.take (mem.length - addr / 8 - winBytes addr nbits) ++ new
          ++ mem.drop (mem.length - addr / 8)) := by
  have hBK : addr / 8 + winBytes addr nbits ≤ mem.length := by
    simp only [winBytes]
    split_ifs with h <;> omega
  have hK1 : 1 ≤ winBytes addr nbits := by
    simp only [winBytes]
    split_ifs with h <;> omega
  refine ⟨-(((addr / 8 + winBytes addr nbits : Nat)) : Int),
    if addr / 8 = 0 then none else some (-((addr / 8 : Nat) : Int)), ?_, ?_, ?_⟩
  · have hcheck : check_bounds 1 mem.length (addr / 8)
        ((addr + nbits) / 8 - addr / 8) = .ok () := by
      simp only [check_bounds]
      split_ifs with h
      · exact absurd h (by omega)
      · rfl
    simp only [calc_mem_slice_byte_bounds, BITS_PER_BYTE, hcheck, except_bind_ok]
    by_cases hmod : (addr + nbits) % 8 > 0
    · simp only [if_pos hmod]
      have hfst : -((((addr + nbits) / 8 : Nat) : Int) + 1)
          = -(((addr / 8 + winBytes addr nbits : Nat)) : Int) := by
        simp only [winBytes, if_pos hmod]
        push_cast
        omega
      rw [hfst]
      by_cases hB : addr / 8 = 0
      · have hz : -(((addr / 8 : Nat) : Int) + 1) + 1 = 0 := by
          rw [hB]
          norm_num
        rw [if_pos hB, if_pos hz]
      · have hz : ¬ (-(((addr / 8 : Nat) : Int) + 1) + 1 = 0) := by omega
        rw [if_neg hB, if_neg hz]
        have hsnd : -(((addr / 8 : Nat) : Int) + 1) + 1 = -((addr / 8 : Nat) : Int) := by
          ring
        rw [hsnd]
    · simp only [if_neg hmod]
      have hfst : -((((addr + nbits) / 8 : Nat) : Int) + 1) + 1
          = -(((addr / 8 + winBytes addr nbits : Nat)) : Int) := by
        simp only [winBytes, if_neg hmod]
        push_cast
        omega
      rw [hfst]
      by_cases hB : addr / 8 = 0
      · have hz : -(((addr / 8 : Nat) : Int) + 1) + 1 = 0 := by
          rw [hB]
          norm_num
        rw [if_pos hB, if_pos hz]
      · have hz : ¬ (-(((addr / 8 : Nat) : Int) + 1) + 1 = 0) := by omega
        rw [if_neg hB, if_neg hz]
        have hsnd : -(((addr / 8 : Nat) : Int) + 1) + 1 = -((addr / 8 : Nat) : Int) := by
          ring
        rw [hsnd]
  · have hstart : pyBound mem.length
        (-(((addr / 8 + winBytes addr nbits : Nat)) : Int))
        = mem.length - addr / 8 - winBytes addr nbits := by
      rw [pyBound_neg _ _ (by omega) (by omega)]
      omega
    have hstop : (match (if addr / 8 = 0 then none
          else some (-((addr / 8 : Nat) : Int)) : Option Int) with
        | none => mem.length
        | some j => pyBound mem.length j) = mem.length - addr / 8 := by
      by_cases hB : addr / 8 = 0
      · rw [if_pos hB]
        show mem.length = mem.length - addr / 8
        omega
      · rw [if_neg hB]
        show pyBound mem.length (-((addr / 8 : Nat) : Int)) = mem.length - addr / 8
        exact pyBound_neg _ _ (by omega) (by omega)
    simp only [pySlice]
    rw [hstart, hstop, List.drop_take]
    congr 1
    omega
  · intro new
    have hstart : pyBound mem.length
        (-(((addr / 8 + winBytes addr nbits : Nat)) : Int))
        = mem.length - addr / 8 - winBytes addr nbits := by
      rw [pyBound_neg _ _ (by omega) (by omega)]
      omega
    have hstop : (match (if addr / 8 = 0 then none
          else some (-((addr / 8 : Nat) : Int)) : Option Int) with
        | none => mem.length
        | some j => pyBound mem.length j) = mem.length - addr / 8 := by
      by_cases hB : addr / 8 = 0
      · rw [if_pos hB]
        show mem.length = mem.length - addr / 8
        omega
      · rw [if_neg hB]
        show pyBound mem.length (-((addr / 8 : Nat) : Int)) = mem.length - addr / 8
        exact pyBound_neg _ _ (by omega) (by omega)
    simp only [pySetSlice]
    rw [hstart, hstop]
    congr 2
    omega

/-- Successful evaluation of `int_to_bytes`. -/
theorem int_to_bytes_eval (v n : Nat) (h : v < 256 ^ n) :
    int_to_bytes v n = .ok (natToBEBytes v n) := by
  simp only [int_to_bytes]
  rw [if_pos h]

/-- A byte list shifted left by fewer than 8 bits fits in one byte
more: the prepended zero byte of `lshift_bits` absorbs the shifted-out
bits. -/
theorem lshift_value_lt (data : List Nat) (n : Nat) (hn : n < 8)
    (hb : ∀ b ∈ data, b < 256) :
    int_from_bytes data <<< n < 256 ^ (data.length + 1) := by
  have h1 := int_from_bytes_lt data hb
  have h4 : (2 : Nat) ^ n ≤ 256 := by
    calc (2 : Nat) ^ n ≤ 2 ^ 8 := Nat.pow_le_pow_right (by norm_num) (by omega)
      _ = 256 := by norm_num
  rw [Nat.shiftLeft_eq]
  calc int_from_bytes data * 2 ^ n ≤ int_from_bytes data * 256 :=
      Nat.mul_le_mul_left _ h4
    _ < 256 ^ data.length * 256 := (Nat.mul_lt_mul_right (by norm_num)).mpr h1
    _ = 256 ^ (data.length + 1) := (pow_succ 256 _).symm

theorem lshift_bits_eval (data : List Nat) (n : Nat) (hn : n < 8)
    (hb : ∀ b ∈ data, b < 256) :
    lshift_bits data n none false
      = .ok (natToBEBytes (int_from_bytes data <<< n) (data.length + 1)) := by
  have hlt := lshift_value_lt data n hn hb
  have hz : int_from_bytes (0 :: data) = int_from_bytes data := by
    rw [int_from_bytes_cons]
    omega
  show int_to_bytes (int_from_bytes ((0 : Nat) :: data) <<< n) ((0 : Nat) :: data).length = _
  rw [hz, List.length_cons, int_to_bytes_eval _ _ hlt]

/-- Evaluation of `rshift_bits` with `truncate=True` as called by
`get_bits`: right shifts never overflow the buffer. -/
theorem rshift_bits_eval (data : List Nat) (n : Nat) (hb : ∀ b ∈ data, b < 256) :
    rshift_bits data n none true
      = .ok (natToBEBytes (int_from_bytes data >>> n) data.length) := by
  have h1 := int_from_bytes_lt data hb
  have hlt : int_from_bytes data >>> n < 256 ^ data.length := by
    rw [Nat.shiftRight_eq_div_pow]
    exact lt_of_le_of_lt (Nat.div_le_self _ _) h1
  show int_to_bytes (int_from_bytes data >>> n) data.length = _
  rw [int_to_bytes_eval _ _ hlt]

/-- Taking the last `D ≥ 1` bytes of a canonical `K`-byte encoding
keeps the value modulo `256 ^ D`. -/
theorem pyTakeLast_natToBEBytes (v K D : Nat) (hD1 : 1 ≤ D) (hDK : D ≤ K) :
    pyTakeLast (natToBEBytes v K) D = natToBEBytes (v % 256 ^ D) D := by
  obtain ⟨c, rfl⟩ : ∃ c, K = c + D := ⟨K - D, by omega⟩
  simp only [pyTakeLast]
  have hgen : ∀ l1 l2 : List Nat, l1.length = c → (l1 ++ l2).drop c = l2 := by
    intro l1 l2 hl
    rw [← hl, List.drop_left]
  rw [if_neg (by omega), natToBEBytes_length,
    show c + D - D = c from by omega, natToBEBytes_split,
    hgen _ _ (natToBEBytes_length _ _)]

/-- Numeric facts relating the window geometry quantities. -/
theorem winBytes_facts (addr nbits : Nat) (h1 : 1 ≤ nbits) :
    1 ≤ winBytes addr nbits ∧ addr % 8 + nbits ≤ 8 * winBytes addr nbits
      ∧ ceilBytes nbits ≤ winBytes addr nbits ∧ 1 ≤ ceilBytes nbits
      ∧ nbits ≤ 8 * ceilBytes nbits := by
  simp only [winBytes, ceilBytes]
  split_ifs <;> omega

/-- The masked slice value, shifted down into window position, fits in
`nbits` bits. -/
theorem masked_shift_lt (x addr nbits : Nat) :
    (x &&& winMask addr nbits) >>> (addr % 8) < 2 ^ nbits := by
  apply lt_two_pow_of_high_bits_false
  intro i hi
  rw [Nat.testBit_shiftRight, Nat.testBit_land]
  simp only [winMask, testBit_winMask]
  have hfalse : ¬ addr % 8 + i < addr % 8 + nbits := by omega
  simp [hfalse]

/-- Full evaluation of `get_bits` on an in-bounds, nonempty window:
the result is the slice value masked to the window, shifted right into
position, encoded on `ceil(nbits/8)` bytes. -/
theorem get_bits_eval (mem : List Nat) (addr nbits : Nat)
    (hmem : ∀ b ∈ mem, b < 256) (h1 : 1 ≤ nbits)
    (hw : addr + nbits ≤ 8 * mem.length) :
    get_bits mem addr nbits
      = .ok (natToBEBytes
          ((int_from_bytes (winSlice mem addr nbits) &&& winMask addr nbits)
            >>> (addr % 8)) (ceilBytes nbits)) := by
  obtain ⟨hK1, hWK, hDK, hD1, hnD⟩ := winBytes_facts addr nbits h1
  have hmasks := calc_masks_eval addr nbits h1
  obtain ⟨lb, rb, hbounds, hslice, hset⟩ := mem_slice_bounds_eval mem addr nbits h1 hw
  have hmidb : ∀ b ∈ winSlice mem addr nbits, b < 256 := fun b hb =>
    hmem b (List.mem_of_mem_drop (List.mem_of_mem_take hb))
  have hMlt : winMask addr nbits < 2 ^ (8 * winBytes addr nbits) :=
    lt_of_lt_of_le (winMask_lt _ _) (Nat.pow_le_pow_right (by norm_num) hWK)
  have hfbM : int_from_bytes (natToBEBytes (winMask addr nbits) (winBytes addr nbits))
      = winMask addr nbits := by
    apply int_from_bytes_natToBEBytes
    rw [pow256_eq_two_pow]
    exact hMlt
  have hmasked_lt : int_from_bytes (winSlice mem addr nbits) &&& winMask addr nbits
      < 256 ^ winBytes addr nbits := by
    rw [pow256_eq_two_pow]
    exact lt_of_le_of_lt Nat.and_le_right hMlt
  have hshift_lt : (int_from_bytes (winSlice mem addr nbits) &&& winMask addr nbits)
      >>> (addr % 8) < 256 ^ ceilBytes nbits := by
    rw [pow256_eq_two_pow]
    exact lt_of_lt_of_le (masked_shift_lt _ _ _)
      (Nat.pow_le_pow_right (by norm_num) hnD)
  have hfbmasked : int_from_bytes (natToBEBytes
      (int_from_bytes (winSlice mem addr nbits) &&& winMask addr nbits)
      (winBytes addr nbits))
      = int_from_bytes (winSlice mem addr nbits) &&& winMask addr nbits :=
    int_from_bytes_natToBEBytes _ _ hmasked_lt
  have hws : pySlice mem lb rb = winSlice mem addr nbits := hslice
  simp only [get_bits, hmasks, except_bind_ok, hbounds, hws, hfbM,
    natToBEBytes_length]
  rw [int_to_bytes_eval _ _ hmasked_lt, except_bind_ok,
    rshift_bits_eval _ _ (natToBEBytes_bytes_lt _ _), except_bind_ok,
    hfbmasked, natToBEBytes_length]
  simp only [BITS_PER_BYTE]
  have hDlem := pyTakeLast_natToBEBytes
    ((int_from_bytes (winSlice mem addr nbits) &&& winMask addr nbits) >>> (addr % 8))
    (winBytes addr nbits) (ceilBytes nbits) hD1 hDK
  simp only [ceilBytes] at hDlem
  rw [hDlem]
  simp only [ceilBytes] at hshift_lt
  rw [Nat.mod_eq_of_lt hshift_lt]
  simp only [ceilBytes]

/-- Full evaluation of `set_bits` on an in-bounds, nonempty window:
the covered byte slice is replaced by the patched value and the rest of
the section is copied over unchanged. -/
theorem set_bits_eval (mem data : List Nat) (addr nbits : Nat)
    (hmem : ∀ b ∈ mem, b < 256) (h1 : 1 ≤ nbits)
    (hw : addr + nbits ≤ 8 * mem.length) (hdb : ∀ b ∈ data, b < 256) :
    set_bits mem addr nbits data
      = .ok (mem.take (mem.length - addr / 8 - winBytes addr nbits)
          ++ natToBEBytes (patchedVal mem data addr nbits) (winBytes addr nbits)
          ++ mem.drop (mem.length - addr / 8)) := by
  obtain ⟨hK1, hWK, hDK, hD1, hnD⟩ := winBytes_facts addr nbits h1
  have hmasks := calc_masks_eval addr nbits h1
  obtain ⟨lb, rb, hbounds, hslice, hset⟩ := mem_slice_bounds_eval mem addr nbits h1 hw
  have hmidb : ∀ b ∈ winSlice mem addr nbits, b < 256 := fun b hb =>
    hmem b (List.mem_of_mem_drop (List.mem_of_mem_take hb))
  have hMlt : winMask addr nbits < 2 ^ (8 * winBytes addr nbits) :=
    lt_of_lt_of_le (winMask_lt _ _) (Nat.pow_le_pow_right (by norm_num) hWK)
  have hfbM : int_from_bytes (natToBEBytes (winMask addr nbits) (winBytes addr nbits))
      = winMask addr nbits := by
    apply int_from_bytes_natToBEBytes
    rw [pow256_eq_two_pow]
    exact hMlt
  have hW8 : addr % 8 < 8 := Nat.mod_lt _ (by norm_num)
  have hlsh := lshift_bits_eval data (addr % 8) hW8 hdb
  have hfbd : int_from_bytes (natToBEBytes (int_from_bytes data <<< (addr % 8))
      (data.length + 1)) = int_from_bytes data <<< (addr % 8) :=
    int_from_bytes_natToBEBytes _ _ (lshift_value_lt data _ hW8 hdb)
  have hmid_lt : int_from_bytes (winSlice mem addr nbits)
      < 2 ^ (8 * winBytes addr nbits) := by
    rw [← pow256_eq_two_pow]
    refine lt_of_lt_of_le (int_from_bytes_lt _ hmidb) ?_
    apply Nat.pow_le_pow_right (by norm_num)
    simp only [winSlice, List.length_take]
    exact min_le_left _ _
  have hplt : patchedVal mem data addr nbits < 256 ^ winBytes addr nbits := by
    rw [pow256_eq_two_pow]
    apply lt_two_pow_of_high_bits_false
    intro i hi
    have hpow : (2 : Nat) ^ (8 * winBytes addr nbits) ≤ 2 ^ i :=
      Nat.pow_le_pow_right (by norm_num) hi
    simp only [patchedVal, pyAndNot]
    rw [Nat.testBit_lor, Nat.testBit_land, Nat.testBit_ldiff]
    rw [Nat.testBit_eq_false_of_lt (lt_of_lt_of_le hMlt hpow),
      Nat.testBit_eq_false_of_lt (lt_of_lt_of_le hmid_lt hpow)]
    simp
  have hws : pySlice mem lb rb = winSlice mem addr nbits := hslice
  simp only [set_bits, BITS_PER_BYTE, hmasks, except_bind_ok, hbounds, hws, hlsh,
    hfbM, natToBEBytes_length, hfbd]
  have hpatch : (int_from_bytes data <<< (addr % 8)) &&& winMask addr nbits
      ||| pyAndNot (int_from_bytes (winSlice mem addr nbits)) (winMask addr nbits)
      = patchedVal mem data addr nbits := rfl
  rw [hpatch, int_to_bytes_eval _ _ hplt, except_bind_ok]
  simp only [pySetSliceB]
  rw [if_pos (natToBEBytes_bytes_lt _ _), hset]

/-- The patched value fits in the window's byte count. -/
theorem patchedVal_lt (mem data : List Nat) (addr nbits : Nat)
    (hmem : ∀ b ∈ mem, b < 256) (h1 : 1 ≤ nbits) :
    patchedVal mem data addr nbits < 256 ^ winBytes addr nbits := by
  obtain ⟨hK1, hWK, hDK, hD1, hnD⟩ := winBytes_facts addr nbits h1
  have hmidb : ∀ b ∈ winSlice mem addr nbits, b < 256 := fun b hb =>
    hmem b (List.mem_of_mem_drop (List.mem_of_mem_take hb))
  have hMlt : winMask addr nbits < 2 ^ (8 * winBytes addr nbits) :=
    lt_of_lt_of_le (winMask_lt _ _) (Nat.pow_le_pow_right (by norm_num) hWK)
  have hmid_lt : int_from_bytes (winSlice mem addr nbits)
      < 2 ^ (8 * winBytes addr nbits) := by
    rw [← pow256_eq_two_pow]
    refine lt_of_lt_of_le (int_from_bytes_lt _ hmidb) ?_
    apply Nat.pow_le_pow_right (by norm_num)
    simp only [winSlice, List.length_take]
    exact min_le_left _ _
  rw [pow256_eq_two_pow]
  apply lt_two_pow_of_high_bits_false
  intro i hi
  have hpow : (2 : Nat) ^ (8 * winBytes addr nbits) ≤ 2 ^ i :=
    Nat.pow_le_pow_right (by norm_num) hi
  simp only [patchedVal, pyAndNot]
  rw [Nat.testBit_lor, Nat.testBit_land, Nat.testBit_ldiff]
  rw [Nat.testBit_eq_false_of_lt (lt_of_lt_of_le hMlt hpow),
    Nat.testBit_eq_false_of_lt (lt_of_lt_of_le hmid_lt hpow)]
  simp

/-- Masking the patched value to the window recovers exactly the
left-shifted data, provided the data fits in `nbits` bits. -/
theorem patched_and_mask (mem data : List Nat) (addr nbits : Nat)
    (hval : int_from_bytes data < 2 ^ nbits) :
    patchedVal mem data addr nbits &&& winMask addr nbits
      = int_from_bytes data <<< (addr % 8) := by
  apply Nat.eq_of_testBit_eq
  intro i
  simp only [patchedVal, pyAndNot]
  rw [Nat.testBit_land, Nat.testBit_lor, Nat.testBit_land, Nat.testBit_ldiff]
  simp only [winMask, testBit_winMask]
  rw [Nat.testBit_shiftLeft]
  by_cases hWi : addr % 8 ≤ i
  · by_cases hin : i < addr % 8 + nbits
    · simp [ge_iff_le, hWi, hin]
    · have hd : (int_from_bytes data).testBit (i - addr % 8) = false :=
        Nat.testBit_eq_false_of_lt (lt_of_lt_of_le hval
          (Nat.pow_le_pow_right (by norm_num) (by omega)))
      simp [ge_iff_le, hWi, hin, hd]
  · simp [ge_iff_le, hWi]

/-- Shifting the masked patched value back down recovers the data. -/
theorem patched_roundtrip (mem data : List Nat) (addr nbits : Nat)
    (hval : int_from_bytes data < 2 ^ nbits) :
    (patchedVal mem data addr nbits &&& winMask addr nbits) >>> (addr % 8)
      = int_from_bytes data := by
  rw [patched_and_mask mem data addr nbits hval, Nat.shiftLeft_eq,
    Nat.shiftRight_eq_div_pow, Nat.mul_div_cancel _ (Nat.two_pow_pos _)]

/-- Bits of the patched value outside the window agree with the
original slice value. -/
theorem patchedVal_outside (mem data : List Nat) (addr nbits : Nat) (j : Nat)
    (hj : j < addr % 8 ∨ addr % 8 + nbits ≤ j) :
    (patchedVal mem data addr nbits).testBit j
      = (int_from_bytes (winSlice mem addr nbits)).testBit j := by
  simp only [patchedVal, pyAndNot]
  rw [Nat.testBit_lor, Nat.testBit_land, Nat.testBit_ldiff]
  simp only [winMask, testBit_winMask]
  have hM : (decide (addr % 8 ≤ j) && decide (j < addr % 8 + nbits)) = false := by
    rcases hj with hj | hj
    · simp [Nat.not_le.mpr hj]
    · simp [Nat.not_lt.mpr hj]
  rw [hM]
  simp

/-- Extracting the middle block of a three-part concatenation. -/
theorem take_drop_middle_block (p m q : List Nat) :
    ((p ++ m ++ q).drop p.length).take m.length = m := by
  rw [List.append_assoc, List.drop_left, List.take_left]

/-- The window slice of a three-part list whose middle block has the
window's size and whose tail has `addr / 8` bytes is the middle block. -/
theorem winSlice_three (p m q : List Nat) (addr nbits : Nat)
    (hm : m.length = winBytes addr nbits) (hq : q.length = addr / 8) :
    winSlice (p ++ m ++ q) addr nbits = m := by
  have hlen : (p ++ m ++ q).length = p.length + m.length + q.length := by
    simp only [List.length_append]
  simp only [winSlice]
  rw [hlen, show p.length + m.length + q.length - addr / 8 - winBytes addr nbits
      = p.length from by omega, ← hm, take_drop_middle_block]

/-- Any byte list splits around the window slice. -/
theorem mem_decomp (mem : List Nat) (addr nbits : Nat)
    (hBK : addr / 8 + winBytes addr nbits ≤ mem.length) :
    mem = mem.take (mem.length - addr / 8 - winBytes addr nbits)
      ++ winSlice mem addr nbits ++ mem.drop (mem.length - addr / 8) := by
  simp only [winSlice]
  have h3 := List.take_append_drop (winBytes addr nbits)
    (mem.drop (mem.length - addr / 8 - winBytes addr nbits))
  rw [List.drop_drop] at h3
  rw [show mem.length - addr / 8 - winBytes addr nbits + winBytes addr nbits
      = mem.length - addr / 8 from by omega] at h3
  rw [List.append_assoc, h3, List.take_append_drop]

/-- Value of a three-part byte list. -/
theorem int_from_bytes_three (p m q : List Nat) :
    int_from_bytes (p ++ m ++ q)
      = (int_from_bytes p * 256 ^ m.length + int_from_bytes m) * 256 ^ q.length
        + int_from_bytes q := by
  rw [int_from_bytes_append, int_from_bytes_append]

/-- Bit `k` of a three-part byte list, by zone. -/
theorem testBit_three (p m q : List Nat) (hm : ∀ b ∈ m, b < 256)
    (hq : ∀ b ∈ q, b < 256) (k : Nat) :
    (int_from_bytes (p ++ m ++ q)).testBit k
      = (if k < 8 * q.length then (int_from_bytes q).testBit k
         else if k < 8 * (q.length + m.length)
           then (int_from_bytes m).testBit (k - 8 * q.length)
           else (int_from_bytes p).testBit (k - 8 * (q.length + m.length))) := by
  rw [int_from_bytes_three]
  have hqlt : int_from_bytes q < 2 ^ (8 * q.length) := by
    rw [← pow256_eq_two_pow]
    exact int_from_bytes_lt q hq
  have hmlt : int_from_bytes m < 2 ^ (8 * m.length) := by
    rw [← pow256_eq_two_pow]
    exact int_from_bytes_lt m hm
  rw [pow256_eq_two_pow, pow256_eq_two_pow]
  by_cases hz1 : k < 8 * q.length
  · rw [if_pos hz1, testBit_mul_add_low _ _ _ _ hz1]
  · rw [if_neg hz1]
    obtain ⟨j, rfl⟩ : ∃ j, k = 8 * q.length + j := ⟨k - 8 * q.length, by omega⟩
    rw [testBit_mul_add_high _ _ _ _ hqlt]
    by_cases hz2 : 8 * q.length + j < 8 * (q.length + m.length)
    · rw [if_pos hz2, testBit_mul_add_low _ _ _ _ (by omega)]
      congr 1
      omega
    · rw [if_neg hz2]
      obtain ⟨i, rfl⟩ : ∃ i, j = 8 * m.length + i := ⟨j - 8 * m.length, by omega⟩
      rw [testBit_mul_add_high _ _ _ _ hmlt]
      congr 1
      omega

/-- The window slice has exactly `winBytes` bytes. -/
theorem winSlice_length (mem : List Nat) (addr nbits : Nat)
    (hBK : addr / 8 + winBytes addr nbits ≤ mem.length) :
    (winSlice mem addr nbits).length = winBytes addr nbits := by
  simp only [winSlice, List.length_take, List.length_drop]
  omega

/-- The window fits below the section length in bytes. -/
theorem winBytes_le (addr nbits L : Nat) (h1 : 1 ≤ nbits)
    (hw : addr + nbits ≤ 8 * L) :
    addr / 8 + winBytes addr nbits ≤ L := by
  simp only [winBytes]
  split_ifs <;> omega

/-- C1: for every valid bit window `(addr, nbits)` inside the bits
section (nonempty and with `addr + nbits ≤ 8 *` section length) and
every data buffer of `ceil(nbits/8)` bytes whose bits at or above
position `nbits` are zero, calling `set_bits(addr, nbits, data)` and
then `get_bits(addr, nbits)` returns `data` right-aligned in a buffer
of `ceil(nbits/8)` bytes, i.e. exactly `data` itself. -/
theorem claim_C1_set_then_get_bits (mem data : List Nat) (addr nbits : Nat)
    (hmem : ∀ b ∈ mem, b < 256) (h1 : 1 ≤ nbits)
    (hw : addr + nbits ≤ 8 * mem.length)
    (hlen : data.length = ceilBytes nbits) (hdb : ∀ b ∈ data, b < 256)
    (hval : int_from_bytes data < 2 ^ nbits) :
    ∃ mem2, set_bits mem addr nbits data = .ok mem2
      ∧ get_bits mem2 addr nbits = .ok data := by
  obtain ⟨hK1, hWK, hDK, hD1, hnD⟩ := winBytes_facts addr nbits h1
  have hBK := winBytes_le addr nbits mem.length h1 hw
  refine ⟨_, set_bits_eval mem data addr nbits hmem h1 hw hdb, ?_⟩
  have hmlen : (natToBEBytes (patchedVal mem data addr nbits)
      (winBytes addr nbits)).length = winBytes addr nbits := natToBEBytes_length _ _
  have hqlen : (mem.drop (mem.length - addr / 8)).length = addr / 8 := by
    rw [List.length_drop]
    omega
  have hres_b : ∀ b ∈ mem.take (mem.length - addr / 8 - winBytes addr nbits)
      ++ natToBEBytes (patchedVal mem data addr nbits) (winBytes addr nbits)
      ++ mem.drop (mem.length - addr / 8), b < 256 := by
    intro b hb
    simp only [List.mem_append] at hb
    rcases hb with (hb | hb) | hb
    · exact hmem b (List.mem_of_mem_take hb)
    · exact natToBEBytes_bytes_lt _ _ b hb
    · exact hmem b (List.mem_of_mem_drop hb)
  have hres_len : (mem.take (mem.length - addr / 8 - winBytes addr nbits)
      ++ natToBEBytes (patchedVal mem data addr nbits) (winBytes addr nbits)
      ++ mem.drop (mem.length - addr / 8)).length = mem.length := by
    simp only [List.length_append, hmlen, List.length_take, List.length_drop]
    omega
  rw [get_bits_eval _ addr nbits hres_b h1 (by rw [hres_len]; exact hw),
    winSlice_three _ _ _ addr nbits hmlen hqlen,
    int_from_bytes_natToBEBytes _ _ (patchedVal_lt mem data addr nbits hmem h1),
    patched_roundtrip mem data addr nbits hval,
    ← hlen, natToBEBytes_int_from_bytes data hdb]

/-- Witness for C1: the S3 scenario on a 16-bit all-zero bits section,
window `addr = 3`, `nbits = 5`, data `[0x1F]`. -/
theorem claim_C1_witness :
    ((∀ b ∈ ([0, 0] : List Nat), b < 256) ∧ 1 ≤ 5
        ∧ 3 + 5 ≤ 8 * ([0, 0] : List Nat).length
        ∧ ([31] : List Nat).length = ceilBytes 5
        ∧ (∀ b ∈ ([31] : List Nat), b < 256)
        ∧ int_from_bytes [31] < 2 ^ 5)
      ∧ ∃ mem2, set_bits [0, 0] 3 5 [31] = .ok mem2
        ∧ get_bits mem2 3 5 = .ok [31] :=
  ⟨⟨by decide, by decide, by decide, by decide, by decide, by decide⟩,
    claim_C1_set_then_get_bits [0, 0] [31] 3 5 (by decide) (by decide) (by decide)
      (by decide) (by decide) (by decide)⟩

/-- C8: for every valid `set_bits(addr, nbits, data)` call, every bit
of the bits section outside the window `[addr, addr + nbits)` has the
same value after the call as before it. -/
theorem claim_C8_set_bits_frame (mem data : List Nat) (addr nbits : Nat)
    (hmem : ∀ b ∈ mem, b < 256) (h1 : 1 ≤ nbits)
    (hw : addr + nbits ≤ 8 * mem.length) (hdb : ∀ b ∈ data, b < 256) :
    ∃ mem2, set_bits mem addr nbits data = .ok mem2
      ∧ ∀ k, k < 8 * mem.length → (k < addr ∨ addr + nbits ≤ k) →
        section_bit mem2 k = section_bit mem k := by
  obtain ⟨hK1, hWK, hDK, hD1, hnD⟩ := winBytes_facts addr nbits h1
  have hBK := winBytes_le addr nbits mem.length h1 hw
  refine ⟨_, set_bits_eval mem data addr nbits hmem h1 hw hdb, ?_⟩
  intro k hk hout
  have hqb : ∀ b ∈ mem.drop (mem.length - addr / 8), b < 256 := fun b hb =>
    hmem b (List.mem_of_mem_drop hb)
  have hmid_b : ∀ b ∈ winSlice mem addr nbits, b < 256 := fun b hb =>
    hmem b (List.mem_of_mem_drop (List.mem_of_mem_take hb))
  have hnb_b := natToBEBytes_bytes_lt (patchedVal mem data addr nbits)
    (winBytes addr nbits)
  have hqlen : (mem.drop (mem.length - addr / 8)).length = addr / 8 := by
    rw [List.length_drop]
    omega
  have hmlen : (natToBEBytes (patchedVal mem data addr nbits)
      (winBytes addr nbits)).length = winBytes addr nbits := natToBEBytes_length _ _
  have hwsl := winSlice_length mem addr nbits hBK
  simp only [section_bit]
  conv_rhs => rw [mem_decomp mem addr nbits hBK]
  rw [testBit_three _ _ _ hnb_b hqb k, testBit_three _ _ _ hmid_b hqb k,
    hqlen, hmlen, hwsl,
    int_from_bytes_natToBEBytes _ _ (patchedVal_lt mem data addr nbits hmem h1)]
  by_cases hz1 : k < 8 * (addr / 8)
  · rw [if_pos hz1, if_pos hz1]
  · rw [if_neg hz1, if_neg hz1]
    by_cases hz2 : k < 8 * (addr / 8 + winBytes addr nbits)
    · rw [if_pos hz2, if_pos hz2]
      apply patchedVal_outside
      omega
    · rw [if_neg hz2, if_neg hz2]

/-- Witness for C8 at the same concrete scenario as C1. -/
theorem claim_C8_witness :
    ((∀ b ∈ ([0, 0] : List Nat), b < 256) ∧ 1 ≤ 5
        ∧ 3 + 5 ≤ 8 * ([0, 0] : List Nat).length
        ∧ (∀ b ∈ ([31] : List Nat), b < 256))
      ∧ ∃ mem2, set_bits [0, 0] 3 5 [31] = .ok mem2
        ∧ ∀ k, k < 8 * ([0, 0] : List Nat).length → (k < 3 ∨ 3 + 5 ≤ k) →
          section_bit mem2 k = section_bit [0, 0] k :=
  ⟨⟨by decide, by decide, by decide, by decide⟩,
    claim_C8_set_bits_frame [0, 0] [31] 3 5 (by decide) (by decide) (by decide)
      (by decide)⟩

/-- C5: for every pair `(start_bit, end_bit)` with the window at most
8 bits wide, `calc_byte_mask` returns the byte described by the spec's
formula (`start_mask` and `end_mask` combined and inverted within 8
bits), and it raises `InvalidBitWindow` (`ValueError`) exactly when
`end_bit - start_bit > 8`. -/
theorem claim_C5_calc_byte_mask (start_bit end_bit : Nat) :
    (end_bit - start_bit ≤ 8 →
        calc_byte_mask start_bit end_bit = .ok (spec_byte_mask start_bit end_bit))
      ∧ (8 < end_bit - start_bit →
        calc_byte_mask start_bit end_bit = .error .valueError) := by
  constructor
  · intro h
    simp only [calc_byte_mask, BITS_PER_BYTE, spec_byte_mask]
    rw [if_neg (by omega)]
    rw [byte_mask_spec_core (start_bit % 8) (Nat.mod_lt _ (by norm_num))
      (end_bit % 8) (Nat.mod_lt _ (by norm_num))]
  · intro h
    simp only [calc_byte_mask, BITS_PER_BYTE]
    rw [if_pos (by omega)]

/-- Witness for C5: the valid window `(3, 7)` and the invalid window
`(0, 9)`. -/
theorem claim_C5_witness :
    (7 - 3 ≤ 8 ∧ calc_byte_mask 3 7 = .ok (spec_byte_mask 3 7))
      ∧ (8 < 9 - 0 ∧ calc_byte_mask 0 9 = .error .valueError) :=
  ⟨⟨by decide, (claim_C5_calc_byte_mask 3 7).1 (by decide)⟩,
    ⟨by decide, (claim_C5_calc_byte_mask 0 9).2 (by decide)⟩⟩

/-- C2 (code bug): the claim says every bit window exceeding the bits
section raises `OutOfBounds`, but on a 2-byte section the window
`addr = 8`, `nbits = 9` reaches bit 16, which does not exist, and
`get_bits` still succeeds: `calc_mem_slice_byte_bounds` bounds-checks
only the whole bytes `addr/8 .. (addr+nbits)/8` and forgets the
partial last byte, and the Python slice then silently clamps. -/
theorem claim_C2_oob_window_not_caught :
    8 + 9 > 8 * ([0xAB, 0xCD] : List Nat).length
      ∧ get_bits [0xAB, 0xCD] 8 9 = .ok [0x00, 0xAB] :=
  ⟨by decide, by rfl⟩

/-- C3 (counterexample): the in-bounds call
`set_data('words16', addr=0, nwords=1, data=[0xAA])` passes one byte
instead of `nwords * wlen = 2` bytes; the claim says the call fails and
the buffer is unchanged, but it succeeds, shrinks the 4-byte section to
3 bytes, and a subsequent `get_data` observes the changed contents. -/
theorem claim_C3_counterexample :
    set_data (get_section_word_len .words16) [0, 0, 0, 0] 0 1 [0xAA]
        = .ok [0xAA, 0, 0]
      ∧ get_data (get_section_word_len .words16) [0xAA, 0, 0] 0 1 = .ok [0xAA, 0]
      ∧ ([0xAA, 0] : List Nat) ≠ [0, 0] :=
  ⟨by rfl, by rfl, by decide⟩

/-- Clamping a nonnegative in-range Python index is the identity. -/
theorem pyBound_natCast (L n : Nat) (h : n ≤ L) : pyBound L (n : Int) = n := by
  simp only [pyBound]
  rw [if_neg (by omega)]
  have h5 := Int.toNat_of_nonneg (show (0 : Int) ≤ (n : Int) by omega)
  omega

/-- C3 (amended): for every in-bounds `set_data(section, addr, nwords,
data)` call whose data values are bytes, the call succeeds regardless
of `len(data)` and splices `data` in place of the `nwords*wlen`-byte
slice at `addr*wlen`; when `len(data) ≠ nwords*wlen` this resizes the
section instead of failing, and a subsequent `get_data` observes the
spliced bytes rather than the original ones. -/
theorem claim_C3_amended (sec : MemSection) (mem data : List Nat) (addr nwords : Nat)
    (hin : addr * get_section_word_len sec + nwords * get_section_word_len sec
      ≤ mem.length)
    (hdb : ∀ b ∈ data, b < 256) :
    set_data (get_section_word_len sec) mem addr nwords data
      = .ok (mem.take (addr * get_section_word_len sec) ++ data
          ++ mem.drop (addr * get_section_word_len sec
            + nwords * get_section_word_len sec)) := by
  simp only [set_data, check_bounds]
  rw [if_neg (by omega)]
  simp only [except_bind_ok, pySetSliceB]
  rw [if_pos hdb]
  simp only [pySetSlice]
  rw [pyBound_natCast _ _ (by omega), pyBound_natCast _ _ (by omega)]
  rw [show max (addr * get_section_word_len sec)
      (addr * get_section_word_len sec + nwords * get_section_word_len sec)
      = addr * get_section_word_len sec + nwords * get_section_word_len sec
    from by omega]

/-- Witness for C3's amended claim at the counterexample input. -/
theorem claim_C3_witness :
    (0 * get_section_word_len .words16 + 1 * get_section_word_len .words16
        ≤ ([0, 0, 0, 0] : List Nat).length)
      ∧ set_data (get_section_word_len .words16) [0, 0, 0, 0] 0 1 [0xAA]
        = .ok [0xAA, 0, 0] :=
  ⟨by decide, by
    rw [claim_C3_amended .words16 [0, 0, 0, 0] [0xAA] 0 1 (by decide) (by decide)]
    rfl⟩

/-- C9: for every fully-specified counter range `[a, b, s]` with `s`
positive or negative, the tick-by-tick values are `a, a+s, a+2s, …` as
long as the next value has not crossed `b` (`≥ b` for positive `s`,
`≤ b` for negative `s`), and the counter wraps back to `a` exactly on
the tick where the next value crosses `b`. -/
theorem claim_C9_counter_range (a b s : Int) (n : Nat) (hs : 0 < s ∨ s < 0)
    (h : ∀ k : Nat, k < n →
      ¬ ((0 < s ∧ b ≤ a + ((k : Int) + 1) * s)
        ∨ (s < 0 ∧ a + ((k : Int) + 1) * s ≤ b))) :
    counter_values a b s n = a + (n : Int) * s
      ∧ (((0 < s ∧ b ≤ a + ((n : Int) + 1) * s)
          ∨ (s < 0 ∧ a + ((n : Int) + 1) * s ≤ b))
        → counter_values a b s (n + 1) = a) := by
  induction n with
  | zero =>
    refine ⟨by simp [counter_values], ?_⟩
    intro hcross
    simp only [counter_values, get_next_range_value]
    rcases hcross with ⟨hs1, hb⟩ | ⟨hs1, hb⟩
    · rw [if_neg (by omega), if_pos (by push_cast at hb; omega)]
    · rw [if_pos hs1, if_pos (by push_cast at hb; omega)]
  | succ n ih =>
    have hprev := ih (fun k hk => h k (by omega))
    have hval : counter_values a b s n = a + (n : Int) * s := hprev.1
    have hnc := h n (by omega)
    have hstep : counter_values a b s (n + 1) = a + ((n : Int) + 1) * s := by
      simp only [counter_values, get_next_range_value, hval]
      rcases hs with hs1 | hs1
      · rw [if_neg (by omega), if_neg (by push_neg at hnc; ring_nf; ring_nf at hnc; omega)]
        ring
      · rw [if_pos hs1, if_neg (by push_neg at hnc; ring_nf; ring_nf at hnc; omega)]
        ring
    refine ⟨by rw [hstep]; push_cast; ring, ?_⟩
    intro hcross
    show get_next_range_value a b s (counter_values a b s (n + 1)) = a
    rw [hstep]
    simp only [get_next_range_value]
    rcases hcross with ⟨hs1, hb⟩ | ⟨hs1, hb⟩
    · rw [if_neg (by omega), if_pos (by push_cast at hb; ring_nf; ring_nf at hb; omega)]
    · rw [if_pos hs1, if_pos (by push_cast at hb; ring_nf; ring_nf at hb; omega)]

/-- Successful evaluation of `get_data` on an in-bounds request. -/
theorem get_data_eval (wlen : Nat) (mem : List Nat) (addr nwords : Nat)
    (hin : addr * wlen + nwords * wlen ≤ mem.length) :
    get_data wlen mem addr nwords
      = .ok ((mem.drop (addr * wlen)).take (nwords * wlen)) := by
  simp only [get_data, check_bounds]
  rw [if_neg (by omega)]
  simp only [except_bind_ok, pySlice]
  rw [pyBound_natCast _ _ (by omega), pyBound_natCast _ _ (by omega),
    List.drop_take,
    show addr * wlen + nwords * wlen - addr * wlen = nwords * wlen from by omega]

/-- Evaluation of the response-construction block shared by the read
handlers (0x01 and 0x03): on a well-formed 12-byte request the block
yields the response `request[0:8]` with the length field restamped to
`3 + n`, then the byte count `n`, then the payload — provided both the
byte count `n` and the restamped length `3 + n` fit in one byte;
otherwise the `bytearray` item assignment raises `ValueError`. -/
theorem build_read_response_eval (request data : List Nat) (n : Nat)
    (hreq : request.length = 12) (hreqb : ∀ b ∈ request, b < 256)
    (hdata_len : data.length = n) (hdb : ∀ b ∈ data, b < 256) :
    (do
      let response := List.replicate (9 + n) 0
      let response ← pySetSliceB response 0 (some 8) (pySlice request 0 (some 8))
      let response ← pySetByte response 8 n
      let response ← pySetSliceB response 9 (some ((9 + n + 1 : Nat) : Int)) data
      let response ← pySetByte response 5 (response.length - 6)
      (.ok response : Except PyErr (List Nat)))
      = (if n < 256 ∧ 3 + n < 256
        then .ok ((request.take 8).set 5 (3 + n) ++ n :: data)
        else .error .valueError) := by
  have htake8 : (request.take 8).length = 8 := by
    rw [List.length_take, hreq]
    omega
  have hsl : pySlice request 0 (some 8) = request.take 8 := by
    simp only [pySlice, pyBound]
    rw [if_neg (by norm_num), if_neg (by norm_num),
      show ((8 : Int)).toNat = 8 from rfl, show ((0 : Int)).toNat = 0 from rfl,
      hreq, show min 8 12 = 8 from by omega, show min 0 12 = 0 from by omega,
      List.drop_zero]
  have hslb : ∀ b ∈ pySlice request 0 (some 8), b < 256 := by
    rw [hsl]
    intro b hb
    exact hreqb b (List.mem_of_mem_take hb)
  have hstep1 : pySetSliceB (List.replicate (9 + n) 0) 0 (some 8)
      (pySlice request 0 (some 8))
      = .ok (request.take 8 ++ List.replicate (1 + n) 0) := by
    simp only [pySetSliceB]
    rw [if_pos hslb, hsl]
    simp only [pySetSlice, pyBound]
    rw [if_neg (by norm_num), if_neg (by norm_num),
      show ((8 : Int)).toNat = 8 from rfl, show ((0 : Int)).toNat = 0 from rfl,
      List.length_replicate,
      show min 8 (9 + n) = 8 from by omega,
      show min 0 (9 + n) = 0 from by omega,
      show max 0 8 = 8 from by omega,
      List.take_zero, List.nil_append, List.drop_replicate,
      show 9 + n - 8 = 1 + n from by omega]
  have hbuf1len : (request.take 8 ++ List.replicate (1 + n) 0).length = 9 + n := by
    rw [List.length_append, htake8, List.length_replicate]
    omega
  show (do
      let response ← pySetSliceB (List.replicate (9 + n) 0) 0 (some 8)
        (pySlice request 0 (some 8))
      let response ← pySetByte response 8 n
      let response ← pySetSliceB response 9 (some ((9 + n + 1 : Nat) : Int)) data
      let response ← pySetByte response 5 (response.length - 6)
      (.ok response : Except PyErr (List Nat))) = _
  rw [hstep1, except_bind_ok]
  by_cases hc1 : n < 256
  · have hstep2 : pySetByte (request.take 8 ++ List.replicate (1 + n) 0) 8 n
        = .ok (request.take 8 ++ n :: List.replicate n 0) := by
      simp only [pySetByte]
      rw [if_pos (by rw [hbuf1len]; omega), if_pos hc1, List.set_append,
        if_neg (by rw [htake8]; omega), htake8,
        show (8 : Nat) - 8 = 0 from by omega,
        show (1 : Nat) + n = n + 1 from by omega, List.replicate_succ]
      rfl
    rw [hstep2, except_bind_ok]
    have hbuf2len : (request.take 8 ++ n :: List.replicate n 0).length = 9 + n := by
      simp only [List.length_append, htake8, List.length_cons, List.length_replicate]
      omega
    have htk : (request.take 8 ++ n :: List.replicate n 0).take 9
        = request.take 8 ++ [n] := by
      rw [show (9 : Nat) = (request.take 8).length + 1 from by rw [htake8],
        List.take_append]
      rfl
    have hdr : (request.take 8 ++ n :: List.replicate n 0).drop (9 + n) = [] := by
      rw [← hbuf2len, List.drop_length]
    have hstep3 : pySetSliceB (request.take 8 ++ n :: List.replicate n 0) 9
        (some ((9 + n + 1 : Nat) : Int)) data
        = .ok ((request.take 8 ++ [n]) ++ data) := by
      simp only [pySetSliceB]
      rw [if_pos hdb]
      simp only [pySetSlice, pyBound]
      have h5 := Int.toNat_of_nonneg
        (show (0 : Int) ≤ ((9 + n + 1 : Nat) : Int) by omega)
      rw [if_neg (by norm_num), if_neg (by omega), hbuf2len,
        show ((9 : Int)).toNat = 9 from rfl,
        show min 9 (9 + n) = 9 from by omega,
        show min (((9 + n + 1 : Nat) : Int)).toNat (9 + n) = 9 + n from by omega,
        show max 9 (9 + n) = 9 + n from by omega]
      rw [htk]
      rw [hdr]
      rw [List.append_nil]
    rw [hstep3, except_bind_ok]
    have hbuf3len : ((request.take 8 ++ [n]) ++ data).length = 9 + n := by
      simp only [List.length_append, htake8, List.length_singleton, hdata_len]
    by_cases hc2 : 3 + n < 256
    · rw [if_pos (show n < 256 ∧ 3 + n < 256 from ⟨hc1, hc2⟩)]
      simp only [pySetByte]
      rw [if_pos (by rw [hbuf3len]; omega), hbuf3len,
        if_pos (show 9 + n - 6 < 256 from by omega),
        show 9 + n - 6 = 3 + n from by omega,
        List.set_append, if_pos (by simp only [List.length_append, htake8]; omega),
        List.set_append, if_pos (by rw [htake8]; omega), List.append_assoc]
      rfl
    · rw [if_neg (by tauto)]
      simp only [pySetByte]
      rw [if_pos (by rw [hbuf3len]; omega), hbuf3len,
        if_neg (show ¬ 9 + n - 6 < 256 from by omega)]
      rfl
  · rw [if_neg (by tauto)]
    simp only [pySetByte]
    rw [if_pos (by rw [hbuf1len]; omega), if_neg hc1]
    rfl

/-- C10: for every 0x03 Read Holding Registers request whose window is
within the bounds of words16 but whose byte count `2 * nwords` exceeds
255 (nwords ≥ 128), the handler raises an error (`ValueError` from
storing `data_nbytes` into the single byte-count byte) that is not a
caught `IndexError` and so is not translated into a Modbus exception
response: the handler aborts and no response is sent. -/
theorem claim_C10_read_holding_byte_count_overflow (mem16 request : List Nat)
    (hreq : request.length = 12) (hreqb : ∀ b ∈ request, b < 256)
    (hmem : ∀ b ∈ mem16, b < 256)
    (hin : make_word request 8 9 * 2 + make_word request 10 11 * 2 ≤ mem16.length)
    (hbig : 255 < make_word request 10 11 * 2) :
    service_read_holding_registers mem16 request = .error .valueError := by
  have hgd := get_data_eval 2 mem16 (make_word request 8 9)
    (make_word request 10 11) hin
  have hdata_len : ((mem16.drop (make_word request 8 9 * 2)).take
      (make_word request 10 11 * 2)).length = make_word request 10 11 * 2 := by
    rw [List.length_take, List.length_drop]
    omega
  have hdb : ∀ b ∈ (mem16.drop (make_word request 8 9 * 2)).take
      (make_word request 10 11 * 2), b < 256 := fun b hb =>
    hmem b (List.mem_of_mem_drop (List.mem_of_mem_take hb))
  simp only [service_read_holding_registers, word_nbytes, hgd,
    build_read_response_eval request _ (make_word request 10 11 * 2) hreq hreqb
      hdata_len hdb]
  rw [if_neg (by omega)]

/-- C6: for every in-bounds 0x03 Read Holding Registers request on a
12-byte request frame, the successful response carries
`byte_count = nwords * 2` at offset 8, exactly `nwords * 2` payload
bytes equal to the stored words16 memory bytes (big-endian storage),
and an MBAP length field equal to `len(response) - 6`.  The S1
instance is checked in the witness. -/
theorem claim_C6_read_holding_registers (mem16 request resp : List Nat)
    (hreq : request.length = 12) (hreqb : ∀ b ∈ request, b < 256)
    (hmem : ∀ b ∈ mem16, b < 256)
    (hin : make_word request 8 9 * 2 + make_word request 10 11 * 2 ≤ mem16.length)
    (hok : service_read_holding_registers mem16 request = .ok resp) :
    ∃ data, get_data word_nbytes mem16 (make_word request 8 9)
        (make_word request 10 11) = .ok data
      ∧ data.length = make_word request 10 11 * 2
      ∧ resp.length = 9 + make_word request 10 11 * 2
      ∧ resp.getD 8 0 = make_word request 10 11 * 2
      ∧ resp.drop 9 = data
      ∧ resp.getD 5 0 = resp.length - 6 := by
  have hgd := get_data_eval 2 mem16 (make_word request 8 9)
    (make_word request 10 11) hin
  have hdata_len : ((mem16.drop (make_word request 8 9 * 2)).take
      (make_word request 10 11 * 2)).length = make_word request 10 11 * 2 := by
    rw [List.length_take, List.length_drop]
    omega
  have hdb : ∀ b ∈ (mem16.drop (make_word request 8 9 * 2)).take
      (make_word request 10 11 * 2), b < 256 := fun b hb =>
    hmem b (List.mem_of_mem_drop (List.mem_of_mem_take hb))
  have htake8 : (request.take 8).length = 8 := by
    rw [List.length_take, hreq]
    omega
  simp only [service_read_holding_registers, word_nbytes, hgd,
    build_read_response_eval request _ (make_word request 10 11 * 2) hreq hreqb
      hdata_len hdb] at hok
  by_cases hc : make_word request 10 11 * 2 < 256
      ∧ 3 + make_word request 10 11 * 2 < 256
  · rw [if_pos hc] at hok
    injection hok with hok2
    subst hok2
    refine ⟨(mem16.drop (make_word request 8 9 * 2)).take
      (make_word request 10 11 * 2), ?_, hdata_len, ?_, ?_, ?_, ?_⟩
    · simp only [word_nbytes]
      exact hgd
    · simp only [List.length_append, List.length_cons, List.length_set, htake8,
        hdata_len]
      omega
    · rw [List.getD_eq_getElem?_getD, List.getElem?_append,
        if_neg (by simp only [List.length_set, htake8]; omega),
        show (8 : Nat) - ((request.take 8).set 5
          (3 + make_word request 10 11 * 2)).length = 0 from by
            simp only [List.length_set, htake8]]
      simp
    · rw [show (9 : Nat) = ((request.take 8).set 5
          (3 + make_word request 10 11 * 2)).length + 1 from by
            simp only [List.length_set, htake8],
        List.drop_append]
      rfl
    · rw [List.getD_eq_getElem?_getD, List.getElem?_append,
        if_pos (by simp only [List.length_set, htake8]; omega),
        List.getElem?_set_self (by rw [htake8]; omega)]
      simp only [List.length_append, List.length_cons, List.length_set, htake8,
        hdata_len, Option.getD_some]
      omega
  · rw [if_neg hc] at hok
    simp at hok

/-- Witness for C6: the S1 scenario, words16 preloaded with
`00 01 00 02`, request `00 01 00 00 00 06 01 03 00 00 00 02`, expected
response `00 01 00 00 00 07 01 03 04 00 01 00 02`. -/
theorem claim_C6_witness :
    service_read_holding_registers [0, 1, 0, 2] [0, 1, 0, 0, 0, 6, 1, 3, 0, 0, 0, 2]
        = .ok [0, 1, 0, 0, 0, 7, 1, 3, 4, 0, 1, 0, 2]
      ∧ ∃ data, get_data word_nbytes [0, 1, 0, 2]
          (make_word [0, 1, 0, 0, 0, 6, 1, 3, 0, 0, 0, 2] 8 9)
          (make_word [0, 1, 0, 0, 0, 6, 1, 3, 0, 0, 0, 2] 10 11) = .ok data
        ∧ data.length = make_word [0, 1, 0, 0, 0, 6, 1, 3, 0, 0, 0, 2] 10 11 * 2
        ∧ ([0, 1, 0, 0, 0, 7, 1, 3, 4, 0, 1, 0, 2] : List Nat).length
            = 9 + make_word [0, 1, 0, 0, 0, 6, 1, 3, 0, 0, 0, 2] 10 11 * 2
        ∧ ([0, 1, 0, 0, 0, 7, 1, 3, 4, 0, 1, 0, 2] : List Nat).getD 8 0
            = make_word [0, 1, 0, 0, 0, 6, 1, 3, 0, 0, 0, 2] 10 11 * 2
        ∧ ([0, 1, 0, 0, 0, 7, 1, 3, 4, 0, 1, 0, 2] : List Nat).drop 9 = data
        ∧ ([0, 1, 0, 0, 0, 7, 1, 3, 4, 0, 1, 0, 2] : List Nat).getD 5 0
            = ([0, 1, 0, 0, 0, 7, 1, 3, 4, 0, 1, 0, 2] : List Nat).length - 6 :=
  ⟨by rfl,
    claim_C6_read_holding_registers [0, 1, 0, 2] [0, 1, 0, 0, 0, 6, 1, 3, 0, 0, 0, 2]
      [0, 1, 0, 0, 0, 7, 1, 3, 4, 0, 1, 0, 2] (by decide) (by decide) (by decide)
      (by decide) (by rfl)⟩

/-- C7: for every in-bounds 0x01 Read Coil Status request for a
nonempty window on a 12-byte request frame, the produced response's
payload is the `get_bits(addr, nbits)` result with its byte order
reversed, its byte count at offset 8 is `ceil(nbits/8)`, and the MBAP
length field is `len(response) - 6`.  The S3 instance is checked in
the witness. -/
theorem claim_C7_read_coil_status (bits request resp : List Nat)
    (hreq : request.length = 12) (hreqb : ∀ b ∈ request, b < 256)
    (hmem : ∀ b ∈ bits, b < 256)
    (h1 : 1 ≤ make_word request 10 11)
    (hw : make_word request 8 9 + make_word request 10 11 ≤ 8 * bits.length)
    (hok : service_read_coil_status bits request = .ok resp) :
    ∃ data, get_bits bits (make_word request 8 9) (make_word request 10 11)
        = .ok data
      ∧ resp.getD 8 0 = ceilBytes (make_word request 10 11)
      ∧ resp.drop 9 = data.reverse
      ∧ resp.length = 9 + ceilBytes (make_word request 10 11)
      ∧ resp.getD 5 0 = resp.length - 6 := by
  have hgb := get_bits_eval bits (make_word request 8 9) (make_word request 10 11)
    hmem h1 hw
  have hdata_len : ((natToBEBytes
      ((int_from_bytes (winSlice bits (make_word request 8 9) (make_word request 10 11))
          &&& winMask (make_word request 8 9) (make_word request 10 11))
        >>> (make_word request 8 9 % 8))
      (ceilBytes (make_word request 10 11))).reverse).length
      = ceilBytes (make_word request 10 11) := by
    rw [List.length_reverse, natToBEBytes_length]
  have hdb : ∀ b ∈ (natToBEBytes
      ((int_from_bytes (winSlice bits (make_word request 8 9) (make_word request 10 11))
          &&& winMask (make_word request 8 9) (make_word request 10 11))
        >>> (make_word request 8 9 % 8))
      (ceilBytes (make_word request 10 11))).reverse, b < 256 := fun b hb =>
    natToBEBytes_bytes_lt _ _ b (List.mem_reverse.mp hb)
  have htake8 : (request.take 8).length = 8 := by
    rw [List.length_take, hreq]
    omega
  simp only [service_read_coil_status, byte_nbits, hgb] at hok
  rw [show (if make_word request 10 11 % 8 > 0 then make_word request 10 11 / 8 + 1
      else make_word request 10 11 / 8) = ceilBytes (make_word request 10 11)
      from rfl] at hok
  rw [build_read_response_eval request _ (ceilBytes (make_word request 10 11))
    hreq hreqb hdata_len hdb] at hok
  by_cases hc : ceilBytes (make_word request 10 11) < 256
      ∧ 3 + ceilBytes (make_word request 10 11) < 256
  · rw [if_pos hc] at hok
    injection hok with hok2
    subst hok2
    refine ⟨_, hgb, ?_, ?_, ?_, ?_⟩
    · rw [List.getD_eq_getElem?_getD, List.getElem?_append,
        if_neg (by simp only [List.length_set, htake8]; omega),
        show (8 : Nat) - ((request.take 8).set 5
          (3 + ceilBytes (make_word request 10 11))).length = 0 from by
            simp only [List.length_set, htake8]]
      simp
    · rw [show (9 : Nat) = ((request.take 8).set 5
          (3 + ceilBytes (make_word request 10 11))).length + 1 from by
            simp only [List.length_set, htake8],
        List.drop_append]
      rfl
    · simp only [List.length_append, List.length_cons, List.length_set, htake8,
        hdata_len]
      omega
    · rw [List.getD_eq_getElem?_getD, List.getElem?_append,
        if_pos (by simp only [List.length_set, htake8]; omega),
        List.getElem?_set_self (by rw [htake8]; omega)]
      simp only [List.length_append, List.length_cons, List.length_set, htake8,
        hdata_len, Option.getD_some]
      omega
  · rw [if_neg hc] at hok
    simp at hok

/-- Witness for C7: the S3 scenario, a 16-bit bits section holding
`0x00F8` (the result of `set_bits(addr=3, nbits=5, data=[0x1F])` on
zeros), then the 0x01 request `00 01 00 00 00 06 01 01 00 03 00 05`;
the response carries byte count 1 and payload byte `0x1F`. -/
theorem claim_C7_witness :
    service_read_coil_status [0, 248] [0, 1, 0, 0, 0, 6, 1, 1, 0, 3, 0, 5]
          = .ok [0, 1, 0, 0, 0, 4, 1, 1, 1, 31]
      ∧ ∃ data, get_bits [0, 248] (make_word [0, 1, 0, 0, 0, 6, 1, 1, 0, 3, 0, 5] 8 9)
            (make_word [0, 1, 0, 0, 0, 6, 1, 1, 0, 3, 0, 5] 10 11) = .ok data
        ∧ ([0, 1, 0, 0, 0, 4, 1, 1, 1, 31] : List Nat).getD 8 0
            = ceilBytes (make_word [0, 1, 0, 0, 0, 6, 1, 1, 0, 3, 0, 5] 10 11)
        ∧ ([0, 1, 0, 0, 0, 4, 1, 1, 1, 31] : List Nat).drop 9 = data.reverse
        ∧ ([0, 1, 0, 0, 0, 4, 1, 1, 1, 31] : List Nat).length
            = 9 + ceilBytes (make_word [0, 1, 0, 0, 0, 6, 1, 1, 0, 3, 0, 5] 10 11)
        ∧ ([0, 1, 0, 0, 0, 4, 1, 1, 1, 31] : List Nat).getD 5 0
            = ([0, 1, 0, 0, 0, 4, 1, 1, 1, 31] : List Nat).length - 6 :=
  ⟨by rfl,
    claim_C7_read_coil_status [0, 248] [0, 1, 0, 0, 0, 6, 1, 1, 0, 3, 0, 5]
      [0, 1, 0, 0, 0, 4, 1, 1, 1, 31] (by decide) (by decide) (by decide)
      (by decide) (by decide) (by rfl)⟩

/-- The bitwise or of two bytes is a byte. -/
theorem byte_lor_byte (a b : Nat) (ha : a < 256) (hb : b < 256) : a ||| b < 256 :=
  Nat.or_lt_two_pow (show a < 2 ^ 8 from ha) (show b < 2 ^ 8 from hb)

/-- Closed form of `construct_exception_response` on a standard 12-byte
request frame of bytes: it ors `0x80` into the function code byte at
offset 7 and overwrites offset 8 with the exception code, and touches
nothing else — in particular not the MBAP length field at offset 5. -/
theorem construct_exception_response_eval (request : List Nat) (excode : Nat)
    (hreq : request.length = 12) (hreqb : ∀ b ∈ request, b < 256)
    (hex : excode < 256) :
    construct_exception_response request excode
      = .ok ((request.set 7 (request.getD 7 0 ||| exception_flag)).set 8 excode) := by
  have h7lt : 7 < request.length := by omega
  have h7 : request[7]? = some (request.getD 7 0) := by
    rw [List.getElem?_eq_getElem h7lt, List.getD_eq_getElem request 0 h7lt]
  have hb7 : request.getD 7 0 < 256 := by
    rw [List.getD_eq_getElem request 0 h7lt]
    exact hreqb _ (List.getElem_mem h7lt)
  have hflag : request.getD 7 0 ||| exception_flag < 256 :=
    byte_lor_byte _ _ hb7 (by decide)
  simp only [construct_exception_response, pyGetByte, h7, except_bind_ok]
  rw [show pySetByte request 7 (request.getD 7 0 ||| exception_flag)
      = .ok (request.set 7 (request.getD 7 0 ||| exception_flag)) from by
        simp only [pySetByte]
        rw [if_pos h7lt, if_pos hflag],
    except_bind_ok,
    show pySetByte (request.set 7 (request.getD 7 0 ||| exception_flag)) 8 excode
      = .ok ((request.set 7 (request.getD 7 0 ||| exception_flag)).set 8 excode) from by
        simp only [pySetByte]
        rw [if_pos (show 8 < (request.set 7 (request.getD 7 0 ||| exception_flag)).length
            from by rw [List.length_set]; omega),
          if_pos hex],
    except_bind_ok]

/-- C4 (counterexample): the 0x03 request
`00 04 00 00 00 06 01 03 00 02 00 10` against a 4-word words16 section
is out of bounds, and the exception response it draws is the 12-byte
request echoed with the function byte ored with `0x80` and offset 8
overwritten — its MBAP length field is 6, not 3 as the claim states. -/
theorem claim_C4_counterexample :
    service_read_holding_registers (List.replicate 8 0)
        [0, 4, 0, 0, 0, 6, 1, 3, 0, 2, 0, 16]
        = .ok [0, 4, 0, 0, 0, 6, 1, 131, 2, 2, 0, 16]
      ∧ ([0, 4, 0, 0, 0, 6, 1, 131, 2, 2, 0, 16] : List Nat).getD 5 0 ≠ 3 :=
  ⟨by rfl, by decide⟩

/-- C4 (amended): every exception response produced by the module has
bit 7 of the function code byte set and the one-byte exception code at
offset 8, but the MBAP length field is never restamped to 3: the
out-of-bounds 0x01, 0x03 and 0x06 paths return the request frame with
only offsets 7 and 8 changed (so the length field keeps the request's
value), and only the unknown-function path restamps the length field —
to `len(response) - 6 = 6` on a 12-byte frame, not to 3. -/
theorem claim_C4_amended (request : List Nat)
    (hreq : request.length = 12) (hreqb : ∀ b ∈ request, b < 256) :
    ∃ ex2 ex1,
      construct_exception_response request illegal_data_address = .ok ex2
      ∧ ex2.length = 12
      ∧ Nat.testBit (ex2.getD 7 0) 7 = true
      ∧ ex2.getD 8 0 = illegal_data_address
      ∧ ex2.getD 5 0 = request.getD 5 0
      ∧ (∀ i, i < 12 → i ≠ 7 → i ≠ 8 → ex2.getD i 0 = request.getD i 0)
      ∧ (∀ mem16,
          get_data word_nbytes mem16 (make_word request 8 9) (make_word request 10 11)
              = .error .indexError →
          service_read_holding_registers mem16 request = .ok ex2)
      ∧ (∀ bits,
          get_bits bits (make_word request 8 9) (make_word request 10 11)
              = .error .indexError →
          service_read_coil_status bits request = .ok ex2)
      ∧ (∀ mem16,
          set_data word_nbytes mem16 (make_word request 8 9) 1
              (pySlice request 10 (some ((10 + 2 : Nat) : Int)))
              = .error .indexError →
          service_preset_single_register mem16 request = .ok (ex2, mem16))
      ∧ service_unknown_request request = .ok ex1
      ∧ ex1.length = 12
      ∧ Nat.testBit (ex1.getD 7 0) 7 = true
      ∧ ex1.getD 8 0 = illegal_function
      ∧ ex1.getD 5 0 = 6 := by
  have hcer := construct_exception_response_eval request illegal_data_address
    hreq hreqb (by decide)
  have hcer1 := construct_exception_response_eval request illegal_function
    hreq hreqb (by decide)
  have h7lt : 7 < request.length := by omega
  have hbit : Nat.testBit (request.getD 7 0 ||| exception_flag) 7 = true := by
    rw [Nat.testBit_or, show Nat.testBit exception_flag 7 = true from by decide,
      Bool.or_true]
  have hlen1 : ((request.set 7 (request.getD 7 0 ||| exception_flag)).set 8
      illegal_function).length = 12 := by
    simp only [List.length_set]
    exact hreq
  refine ⟨(request.set 7 (request.getD 7 0 ||| exception_flag)).set 8
      illegal_data_address,
    ((request.set 7 (request.getD 7 0 ||| exception_flag)).set 8
      illegal_function).set 5 6,
    hcer, ?_, ?_, ?_, ?_, ?_, ?_, ?_, ?_, ?_, ?_, ?_, ?_, ?_⟩
  · simp only [List.length_set]
    exact hreq
  · rw [List.getD_eq_getElem?_getD, List.getElem?_set_ne (by omega),
      List.getElem?_set_self (by omega)]
    simpa using hbit
  · rw [List.getD_eq_getElem?_getD,
      List.getElem?_set_self (by simp only [List.length_set]; omega)]
    simp
  · rw [List.getD_eq_getElem?_getD, List.getElem?_set_ne (by omega),
      List.getElem?_set_ne (by omega), ← List.getD_eq_getElem?_getD]
  · intro i hi hi7 hi8
    rw [List.getD_eq_getElem?_getD, List.getElem?_set_ne (by omega),
      List.getElem?_set_ne (by omega), ← List.getD_eq_getElem?_getD]
  · intro mem16 hgd
    simp only [service_read_holding_registers, hgd]
    exact hcer
  · intro bits hgb
    simp only [service_read_coil_status, hgb]
    exact hcer
  · intro mem16 hsd
    simp only [service_preset_single_register, hsd]
    rw [hcer, except_bind_ok]
  · simp only [service_unknown_request]
    rw [hcer1, except_bind_ok]
    simp only [pySetByte, hlen1]
    rw [if_pos (show (5 : Nat) < 12 from by decide),
      if_pos (show 12 - 6 < 256 from by decide)]
  · simp only [List.length_set]
    exact hreq
  · rw [List.getD_eq_getElem?_getD, List.getElem?_set_ne (by omega),
      List.getElem?_set_ne (by omega),
      List.getElem?_set_self (by omega)]
    simpa using hbit
  · rw [List.getD_eq_getElem?_getD, List.getElem?_set_ne (by omega),
      List.getElem?_set_self (by simp only [List.length_set]; omega)]
    simp
  · rw [List.getD_eq_getElem?_getD,
      List.getElem?_set_self (by simp only [List.length_set]; omega)]
    simp

/-- Witness for C4 at the request `00 04 00 00 00 06 01 03 00 02 00 10`. -/
theorem claim_C4_witness :
    ∃ ex2 ex1,
      construct_exception_response [0, 4, 0, 0, 0, 6, 1, 3, 0, 2, 0, 16]
          illegal_data_address = .ok ex2
      ∧ ex2.length = 12
      ∧ Nat.testBit (ex2.getD 7 0) 7 = true
      ∧ ex2.getD 8 0 = illegal_data_address
      ∧ ex2.getD 5 0 = ([0, 4, 0, 0, 0, 6, 1, 3, 0, 2, 0, 16] : List Nat).getD 5 0
      ∧ (∀ i, i < 12 → i ≠ 7 → i ≠ 8 →
          ex2.getD i 0 = ([0, 4, 0, 0, 0, 6, 1, 3, 0, 2, 0, 16] : List Nat).getD i 0)
      ∧ (∀ mem16,
          get_data word_nbytes mem16
              (make_word [0, 4, 0, 0, 0, 6, 1, 3, 0, 2, 0, 16] 8 9)
              (make_word [0, 4, 0, 0, 0, 6, 1, 3, 0, 2, 0, 16] 10 11)
              = .error .indexError →
          service_read_holding_registers mem16 [0, 4, 0, 0, 0, 6, 1, 3, 0, 2, 0, 16]
            = .ok ex2)
      ∧ (∀ bits,
          get_bits bits (make_word [0, 4, 0, 0, 0, 6, 1, 3, 0, 2, 0, 16] 8 9)
              (make_word [0, 4, 0, 0, 0, 6, 1, 3, 0, 2, 0, 16] 10 11)
              = .error .indexError →
          service_read_coil_status bits [0, 4, 0, 0, 0, 6, 1, 3, 0, 2, 0, 16]
            = .ok ex2)
      ∧ (∀ mem16,
          set_data word_nbytes mem16
              (make_word [0, 4, 0, 0, 0, 6, 1, 3, 0, 2, 0, 16] 8 9) 1
              (pySlice [0, 4, 0, 0, 0, 6, 1, 3, 0, 2, 0, 16] 10
                (some ((10 + 2 : Nat) : Int)))
              = .error .indexError →
          service_preset_single_register mem16 [0, 4, 0, 0, 0, 6, 1, 3, 0, 2, 0, 16]
            = .ok (ex2, mem16))
      ∧ service_unknown_request [0, 4, 0, 0, 0, 6, 1, 3, 0, 2, 0, 16] = .ok ex1
      ∧ ex1.length = 12
      ∧ Nat.testBit (ex1.getD 7 0) 7 = true
      ∧ ex1.getD 8 0 = illegal_function
      ∧ ex1.getD 5 0 = 6 :=
  claim_C4_amended [0, 4, 0, 0, 0, 6, 1, 3, 0, 2, 0, 16] (by decide) (by decide)

set_option maxRecDepth 4000 in
/-- Witness for C10: a 128-word (256-byte) words16 section, request
`00 01 00 00 00 06 01 03 00 00 00 80` (read 128 words at address 0). -/
theorem claim_C10_witness :
    (make_word [0, 1, 0, 0, 0, 6, 1, 3, 0, 0, 0, 128] 8 9 * 2
        + make_word [0, 1, 0, 0, 0, 6, 1, 3, 0, 0, 0, 128] 10 11 * 2
        ≤ (List.replicate 256 0 : List Nat).length)
      ∧ 255 < make_word [0, 1, 0, 0, 0, 6, 1, 3, 0, 0, 0, 128] 10 11 * 2
      ∧ service_read_holding_registers (List.replicate 256 0)
          [0, 1, 0, 0, 0, 6, 1, 3, 0, 0, 0, 128] = .error .valueError :=
  ⟨by decide, by decide,
    claim_C10_read_holding_byte_count_overflow (List.replicate 256 0)
      [0, 1, 0, 0, 0, 6, 1, 3, 0, 0, 0, 128] (by decide) (by decide) (by decide)
      (by decide) (by decide)⟩

/-- Witness for C9: the S6 counter `[0, 4, 1]` emits `0,1,2,3` and
wraps back to 0 on the tick where the next value reaches 4. -/
theorem claim_C9_witness :
    ((0 : Int) < 1 ∨ (1 : Int) < 0)
      ∧ counter_values 0 4 1 3 = 0 + (3 : Int) * 1
      ∧ counter_values 0 4 1 4 = 0 := by
  have h := claim_C9_counter_range 0 4 1 3 (by decide) (by decide)
  exact ⟨by decide, h.1, h.2 (by decide)⟩
